import Mathlib

/-!
Verification of the grid/pathfinding core of `bevy_jam_5`
(`src/game/map.rs`): the bidirectional position-occupant index (`TileMap`),
the A* pathfinder, the bounded flood fill, the heat-map generator and the
tile-ranking helpers of `VillageMap`.

Machine integers are modelled as `Int`/`Nat`; the one place where wrapping
matters for the claims (the `u32 -> i32` cast in `VillageMap::new`) is
modelled explicitly by `u32_as_i32`.
-/

namespace Jam

/-- Embedding of bevy's `IVec2`: a 2D integer vector. -/
structure IVec2 where
  x : Int
  y : Int
deriving DecidableEq, Repr

instance : Add IVec2 := ⟨fun a b => ⟨a.x + b.x, a.y + b.y⟩⟩

theorem IVec2.add_def (a b : IVec2) : a + b = ⟨a.x + b.x, a.y + b.y⟩ := rfl

/-- Embedding of bevy's `UVec2` (components are `u32`, modelled as `Nat`). -/
structure UVec2 where
  x : Nat
  y : Nat
deriving DecidableEq, Repr

/-- Rust's `as` cast from `u32` to `i32`: wraps modulo `2^32` into
`[-2^31, 2^31)`. -/
def u32_as_i32 (v : Nat) : Int :=
  if v % 2 ^ 32 < 2 ^ 31 then ((v % 2 ^ 32 : Nat) : Int)
  else ((v % 2 ^ 32 : Nat) : Int) - 2 ^ 32

/-- Embedding of `UVec2::as_ivec2`: componentwise `u32 -> i32` cast. -/
def UVec2.as_ivec2 (s : UVec2) : IVec2 := ⟨u32_as_i32 s.x, u32_as_i32 s.y⟩

/-- Bevy `Entity` handles are opaque identifiers; modelled as `Nat`. -/
abbrev Entity : Type := Nat

/-- Modelled from the spec: the `Terrain` component from `game::level`
(file not under `src/`); an enumerated passability class where only
`Water` is treated specially (blocks non-airborne movers). -/
inductive Terrain where
  | Grass
  | Gravel
  | Water
deriving DecidableEq, Repr

/-- Movement direction `NORTH` (map.rs line 16). -/
def NORTH : IVec2 := ⟨0, -1⟩

/-- Movement direction `EAST` (map.rs line 17). -/
def EAST : IVec2 := ⟨1, 0⟩

/-- Movement direction `SOUTH` (map.rs line 18). -/
def SOUTH : IVec2 := ⟨0, 1⟩

/-- Movement direction `WEST` (map.rs line 19). -/
def WEST : IVec2 := ⟨-1, 0⟩

/-- Four directional movement in straight lines like a rook
(map.rs line 26). -/
def ROOK_MOVES : List IVec2 := [NORTH, EAST, SOUTH, WEST]

/-- Eight directional movement like a king (map.rs lines 29-31). -/
def KING_MOVES : List IVec2 :=
  [NORTH, NORTH + EAST, EAST, SOUTH + EAST, SOUTH, SOUTH + WEST, WEST, NORTH + WEST]

/-! Association-list helpers used to embed `bimap::BiHashMap<IVec2, Entity>`.
The bimap stores a set of (position, entity) pairs with both projections
injective; we embed it as a list of pairs and prove the injectivity is an
invariant of the exposed operations. -/

/-- Lookup by left key (position), mirroring `BiHashMap::get_by_left`. -/
def lookupL : List (IVec2 × Entity) → IVec2 → Option Entity
  | [], _ => none
  | (q, f) :: rest, p => if q = p then some f else lookupL rest p

/-- Lookup by right key (entity), mirroring `BiHashMap::get_by_right`. -/
def lookupR : List (IVec2 × Entity) → Entity → Option IVec2
  | [], _ => none
  | (q, f) :: rest, e => if f = e then some q else lookupR rest e

/-- Embedding of `TileMap` (map.rs lines 236-240): a board size plus a
bidirectional position-entity map. -/
structure TileMap where
  size : IVec2
  pairs : List (IVec2 × Entity)
deriving DecidableEq, Repr

/-- Embedding of `TileMap::new` (map.rs lines 243-249). The Rust code
asserts `IVec2::ZERO.cmplt(size).all()`; the panic is modelled as `none`. -/
def TileMap.new (size : IVec2) : Option TileMap :=
  if 0 < size.x ∧ 0 < size.y then some ⟨size, []⟩ else none

/-- Embedding of `TileMap::get` (map.rs lines 264-266). -/
def TileMap.get (t : TileMap) (position : IVec2) : Option Entity :=
  lookupL t.pairs position

/-- Embedding of `TileMap::locate` (map.rs lines 269-271). -/
def TileMap.locate (t : TileMap) (entity : Entity) : Option IVec2 :=
  lookupR t.pairs entity

/-- Embedding of `TileMap::is_occupied` (map.rs lines 259-261). -/
def TileMap.is_occupied (t : TileMap) (position : IVec2) : Bool :=
  (t.get position).isSome

/-- Embedding of `TileMap::set` (map.rs lines 275-277), i.e.
`BiHashMap::insert`: any pair sharing the position and any pair sharing the
entity are evicted, then the new pair is stored. The Rust return value
(`Overwritten`, reporting which pairs were evicted) is not consulted by any
claim and is not modelled. -/
def TileMap.set (t : TileMap) (position : IVec2) (entity : Entity) : TileMap :=
  { t with
    pairs := t.pairs.filter (fun pr => !(pr.1 = position) && !(pr.2 = entity))
      ++ [(position, entity)] }

/-- Embedding of `TileMap::remove` (map.rs lines 280-282): removes the pair
with the given position, returning its entity. -/
def TileMap.remove (t : TileMap) (position : IVec2) : Option Entity × TileMap :=
  (lookupL t.pairs position,
    { t with pairs := t.pairs.filter (fun pr => !(pr.1 = position)) })

/-- Embedding of `TileMap::remove_entity` (map.rs lines 285-289): removes
the pair with the given entity, returning its position. -/
def TileMap.remove_entity (t : TileMap) (entity : Entity) : Option IVec2 × TileMap :=
  (lookupR t.pairs entity,
    { t with pairs := t.pairs.filter (fun pr => !(pr.2 = entity)) })

/-- An abstract index operation, for stating invariants over arbitrary
sequences of `set` / `remove` / `remove_entity` calls. -/
inductive MapOp where
  | set (position : IVec2) (entity : Entity)
  | remove (position : IVec2)
  | remove_entity (entity : Entity)
deriving DecidableEq, Repr

/-- Application of one operation to a `TileMap` (return values discarded). -/
def TileMap.applyOp (t : TileMap) : MapOp → TileMap
  | .set p e => t.set p e
  | .remove p => (t.remove p).2
  | .remove_entity e => (t.remove_entity e).2

/-- Application of a sequence of operations, first to last. -/
def TileMap.applyOps (t : TileMap) (ops : List MapOp) : TileMap :=
  ops.foldl TileMap.applyOp t

/-- The bijection invariant on the stored pair list: no position and no
entity appears in two stored pairs. -/
def TileMap.Bij (t : TileMap) : Prop :=
  (t.pairs.map Prod.fst).Nodup ∧ (t.pairs.map Prod.snd).Nodup

/-- The position interval `[0, size)` from the spec's index invariant. -/
def InBoundsPos (size : IVec2) (p : IVec2) : Prop :=
  0 ≤ p.x ∧ 0 ≤ p.y ∧ p.x < size.x ∧ p.y < size.y

instance (size p : IVec2) : Decidable (InBoundsPos size p) := by
  unfold InBoundsPos; infer_instance

theorem lookupL_mem_of_eq_some {l : List (IVec2 × Entity)} {p : IVec2} {e : Entity}
    (h : lookupL l p = some e) : (p, e) ∈ l := by
  induction l with
  | nil => simp [lookupL] at h
  | cons hd tl ih =>
    obtain ⟨q, f⟩ := hd
    by_cases hq : q = p
    · subst hq
      simp [lookupL] at h
      simp [h]
    · simp [lookupL, hq] at h
      exact List.mem_cons_of_mem _ (ih h)

theorem lookupR_mem_of_eq_some {l : List (IVec2 × Entity)} {e : Entity} {p : IVec2}
    (h : lookupR l e = some p) : (p, e) ∈ l := by
  induction l with
  | nil => simp [lookupR] at h
  | cons hd tl ih =>
    obtain ⟨q, f⟩ := hd
    by_cases hf : f = e
    · subst hf
      simp [lookupR] at h
      simp [h]
    · simp [lookupR, hf] at h
      exact List.mem_cons_of_mem _ (ih h)

theorem lookupL_eq_some_of_mem {l : List (IVec2 × Entity)} {p : IVec2} {e : Entity}
    (hnd : (l.map Prod.fst).Nodup) (h : (p, e) ∈ l) : lookupL l p = some e := by
  induction l with
  | nil => simp at h
  | cons hd tl ih =>
    obtain ⟨q, f⟩ := hd
    simp only [List.map_cons, List.nodup_cons] at hnd
    rcases List.mem_cons.mp h with h1 | h1
    · obtain ⟨hp, he⟩ := Prod.mk.injEq .. ▸ h1
      simp [lookupL, hp.symm, he]
    · have hq : q ≠ p := by
        intro hqp
        subst hqp
        exact hnd.1 (List.mem_map.mpr ⟨(q, e), h1, rfl⟩)
      simp [lookupL, hq]
      exact ih hnd.2 h1

theorem lookupR_eq_some_of_mem {l : List (IVec2 × Entity)} {p : IVec2} {e : Entity}
    (hnd : (l.map Prod.snd).Nodup) (h : (p, e) ∈ l) : lookupR l e = some p := by
  induction l with
  | nil => simp at h
  | cons hd tl ih =>
    obtain ⟨q, f⟩ := hd
    simp only [List.map_cons, List.nodup_cons] at hnd
    rcases List.mem_cons.mp h with h1 | h1
    · obtain ⟨hp, he⟩ := Prod.mk.injEq .. ▸ h1
      simp [lookupR, he.symm, hp]
    · have hf : f ≠ e := by
        intro hfe
        subst hfe
        exact hnd.1 (List.mem_map.mpr ⟨(p, f), h1, rfl⟩)
      simp [lookupR, hf]
      exact ih hnd.2 h1

theorem lookupL_eq_none_iff {l : List (IVec2 × Entity)} {p : IVec2} :
    lookupL l p = none ↔ ∀ e, (p, e) ∉ l := by
  induction l with
  | nil => simp [lookupL]
  | cons hd tl ih =>
    obtain ⟨q, f⟩ := hd
    by_cases hq : q = p
    · subst hq
      constructor
      · intro h
        simp [lookupL] at h
      · intro h
        exact absurd (List.mem_cons_self _ _) (h f)
    · rw [show lookupL ((q, f) :: tl) p = lookupL tl p by simp [lookupL, hq], ih]
      constructor
      · intro h e hmem
        rcases List.mem_cons.mp hmem with h1 | h1
        · exact hq (congrArg Prod.fst h1).symm
        · exact h e h1
      · intro h e hmem
        exact h e (List.mem_cons_of_mem _ hmem)

/-- Each `TileMap` operation preserves the bijection invariant. -/
theorem TileMap.applyOp_bij (t : TileMap) (op : MapOp) (hb : t.Bij) :
    (t.applyOp op).Bij := by
  obtain ⟨hL, hR⟩ := hb
  cases op with
  | set p e =>
    constructor
    · simp only [TileMap.applyOp, TileMap.set, List.map_append, List.nodup_append]
      refine ⟨((List.filter_sublist _).map Prod.fst).nodup hL, by simp, ?_⟩
      intro a ha
      simp only [List.mem_map] at ha
      obtain ⟨pr, hpr, hfst⟩ := ha
      have := List.of_mem_filter hpr
      simp only [Bool.and_eq_true, Bool.not_eq_true', decide_eq_false_iff_not] at this
      simp only [List.map_cons, List.map_nil, List.mem_singleton]
      intro hc
      exact this.1 (by rw [hfst, hc])
    · simp only [TileMap.applyOp, TileMap.set, List.map_append, List.nodup_append]
      refine ⟨((List.filter_sublist _).map Prod.snd).nodup hR, by simp, ?_⟩
      intro a ha
      simp only [List.mem_map] at ha
      obtain ⟨pr, hpr, hsnd⟩ := ha
      have := List.of_mem_filter hpr
      simp only [Bool.and_eq_true, Bool.not_eq_true', decide_eq_false_iff_not] at this
      simp only [List.map_cons, List.map_nil, List.mem_singleton]
      intro hc
      exact this.2 (by rw [hsnd, hc])
  | remove p =>
    exact ⟨((List.filter_sublist _).map Prod.fst).nodup hL,
      ((List.filter_sublist _).map Prod.snd).nodup hR⟩
  | remove_entity e =>
    exact ⟨((List.filter_sublist _).map Prod.fst).nodup hL,
      ((List.filter_sublist _).map Prod.snd).nodup hR⟩

theorem TileMap.applyOps_bij (ops : List MapOp) (t : TileMap) (hb : t.Bij) :
    (t.applyOps ops).Bij := by
  induction ops generalizing t with
  | nil => exact hb
  | cons op rest ih => exact ih _ (t.applyOp_bij op hb)

/-- Each `TileMap` operation leaves the `size` field unchanged. -/
theorem TileMap.applyOp_size (t : TileMap) (op : MapOp) :
    (t.applyOp op).size = t.size := by
  cases op <;> rfl

theorem TileMap.applyOps_size (ops : List MapOp) (t : TileMap) :
    (t.applyOps ops).size = t.size := by
  induction ops generalizing t with
  | nil => rfl
  | cons op rest ih =>
    have h : t.applyOps (op :: rest) = (t.applyOp op).applyOps rest := rfl
    rw [h, ih (t.applyOp op), t.applyOp_size op]

/-- A stored position newly appearing after one operation comes either from
the previous state or from the `set` operation itself. -/
theorem TileMap.mem_fst_applyOp {t : TileMap} {op : MapOp} {p : IVec2}
    (h : p ∈ (t.applyOp op).pairs.map Prod.fst) :
    p ∈ t.pairs.map Prod.fst ∨ ∃ e, op = .set p e := by
  cases op with
  | set p0 e0 =>
    simp only [TileMap.applyOp, TileMap.set, List.map_append, List.mem_append] at h
    rcases h with h | h
    · left
      obtain ⟨pr, hpr, hfst⟩ := List.mem_map.mp h
      exact List.mem_map.mpr ⟨pr, List.mem_of_mem_filter hpr, hfst⟩
    · right
      simp only [List.map_cons, List.map_nil, List.mem_singleton] at h
      exact ⟨e0, by rw [h]⟩
  | remove p0 =>
    left
    obtain ⟨pr, hpr, hfst⟩ := List.mem_map.mp h
    exact List.mem_map.mpr ⟨pr, List.mem_of_mem_filter hpr, hfst⟩
  | remove_entity e0 =>
    left
    obtain ⟨pr, hpr, hfst⟩ := List.mem_map.mp h
    exact List.mem_map.mpr ⟨pr, List.mem_of_mem_filter hpr, hfst⟩

/-- An operation is position-safe when, if it is a `set`, its position is in
bounds. -/
def MapOp.posOk (size : IVec2) : MapOp → Prop
  | .set p _ => InBoundsPos size p
  | .remove _ => True
  | .remove_entity _ => True

instance (size : IVec2) (op : MapOp) : Decidable (op.posOk size) := by
  cases op <;> (unfold MapOp.posOk; infer_instance)

/-- C2: after any sequence of `set`/`remove`/`remove_entity` calls on an
initially empty `TileMap`, the stored mapping is a bijection: every stored
pair round-trips through `get` and `locate`, `get`/`locate` agree, and no
position or entity appears in more than one stored pair. -/
theorem C2_tilemap_bijection (size : IVec2) (ops : List MapOp) (t : TileMap)
    (ht : t = TileMap.applyOps ⟨size, []⟩ ops) :
    (∀ p e, (p, e) ∈ t.pairs → t.get p = some e ∧ t.locate e = some p) ∧
    (∀ p e, t.get p = some e → t.locate e = some p) ∧
    (∀ p e, t.locate e = some p → t.get p = some e) ∧
    (t.pairs.map Prod.fst).Nodup ∧ (t.pairs.map Prod.snd).Nodup := by
  have hb : t.Bij := ht ▸ TileMap.applyOps_bij ops ⟨size, []⟩ ⟨by simp, by simp⟩
  obtain ⟨hL, hR⟩ := hb
  refine ⟨?_, ?_, ?_, hL, hR⟩
  · intro p e hmem
    exact ⟨lookupL_eq_some_of_mem hL hmem, lookupR_eq_some_of_mem hR hmem⟩
  · intro p e hget
    exact lookupR_eq_some_of_mem hR (lookupL_mem_of_eq_some hget)
  · intro p e hloc
    exact lookupL_eq_some_of_mem hL (lookupR_mem_of_eq_some hloc)

theorem C2_tilemap_bijection_witness :
    let t := TileMap.applyOps ⟨⟨2, 2⟩, []⟩ [MapOp.set ⟨0, 0⟩ 3]
    t.locate 3 = some ⟨0, 0⟩ :=
  (C2_tilemap_bijection ⟨2, 2⟩ [MapOp.set ⟨0, 0⟩ 3] _ rfl).2.1 ⟨0, 0⟩ 3 (by decide)

/-- C7 as stated fails: `TileMap::set` performs no bounds check, so it can
store a position outside `[0, size)`. -/
theorem C7_counterexample :
    let t := TileMap.set ⟨⟨2, 2⟩, []⟩ ⟨-1, 0⟩ (0 : Entity)
    (⟨-1, 0⟩ : IVec2) ∈ t.pairs.map Prod.fst ∧ ¬ InBoundsPos t.size ⟨-1, 0⟩ := by
  constructor
  · decide
  · decide

/-- C7 amended: provided every `set` in the sequence uses an in-bounds
position and the initial state stores only in-bounds positions, every stored
position stays within `[0, size)` (the board size is never mutated). -/
theorem C7_amended (t : TileMap) (ops : List MapOp)
    (h0 : ∀ p ∈ t.pairs.map Prod.fst, InBoundsPos t.size p)
    (hops : ∀ op ∈ ops, op.posOk t.size) :
    ∀ p ∈ (t.applyOps ops).pairs.map Prod.fst, InBoundsPos t.size p := by
  induction ops generalizing t with
  | nil => exact h0
  | cons op rest ih =>
    have hsz := t.applyOp_size op
    have hstep : ∀ p ∈ (t.applyOp op).pairs.map Prod.fst,
        InBoundsPos (t.applyOp op).size p := by
      intro p hp
      rw [hsz]
      rcases TileMap.mem_fst_applyOp hp with h | ⟨e, heq⟩
      · exact h0 p h
      · have hok := hops op (List.mem_cons_self _ _)
        rw [heq] at hok
        exact hok
    have hr : ∀ op' ∈ rest, op'.posOk (t.applyOp op).size := by
      intro op' hop'
      rw [hsz]
      exact hops op' (List.mem_cons_of_mem _ hop')
    have hres := ih (t.applyOp op) hstep hr
    rw [hsz] at hres
    exact hres

theorem C7_amended_witness :
    (∀ p ∈ ((⟨⟨2, 2⟩, []⟩ : TileMap).pairs.map Prod.fst),
       InBoundsPos (⟨⟨2, 2⟩, []⟩ : TileMap).size p) ∧
    (∀ op ∈ [MapOp.set ⟨0, 0⟩ 3, MapOp.remove ⟨0, 0⟩],
       op.posOk (⟨⟨2, 2⟩, []⟩ : TileMap).size) ∧
    (∀ p ∈ ((⟨⟨2, 2⟩, []⟩ : TileMap).applyOps
        [MapOp.set ⟨0, 0⟩ 3, MapOp.remove ⟨0, 0⟩]).pairs.map Prod.fst,
       InBoundsPos (⟨⟨2, 2⟩, []⟩ : TileMap).size p) :=
  ⟨by decide, by decide,
   C7_amended ⟨⟨2, 2⟩, []⟩ [MapOp.set ⟨0, 0⟩ 3, MapOp.remove ⟨0, 0⟩]
     (by decide) (by decide)⟩

/-- Embedding of `VillageMap` (map.rs lines 33-40). The `heat_map` holds
`u32` values modelled as `Nat` (the unvisited sentinel `u32::MAX` is the
literal `4294967295`); `deployment_zone` is a set of positions, modelled as
a list. -/
structure VillageMap where
  size : UVec2
  heat_map : List Nat
  terrain : TileMap
  object : TileMap
  deployment_zone : List IVec2
deriving DecidableEq, Repr

/-- Embedding of `VillageMap::new` (map.rs lines 43-51): builds the two
empty `TileMap`s with size `size.as_ivec2()`. The panic of the inner
`TileMap::new` assertion is modelled as `none`. -/
def VillageMap.new (size : UVec2) : Option VillageMap :=
  match TileMap.new size.as_ivec2, TileMap.new size.as_ivec2 with
  | some t1, some t2 => some ⟨size, [], t1, t2, []⟩
  | _, _ => none

/-- C9 as stated fails on `VillageMap::new`: the size `(2^31, 1)` has both
components positive as `u32`, but the cast to `i32` wraps `2^31` to a
negative value, so the `TileMap::new` assertion fires and construction
panics instead of succeeding. -/
theorem C9_counterexample :
    0 < (2 ^ 31 : Nat) ∧ 0 < (1 : Nat) ∧ VillageMap.new ⟨2 ^ 31, 1⟩ = none := by
  refine ⟨by norm_num, by norm_num, by decide⟩

/-- C9 amended: `TileMap::new` panics exactly when a component of its `i32`
size is non-positive and otherwise returns an empty index of that size;
`VillageMap::new` panics when a component of its `u32` size is zero, and
succeeds with empty indices whenever both components are positive and also
representable as positive `i32` values (below `2^31`). -/
theorem C9_amended :
    (∀ s : IVec2, (¬(0 < s.x ∧ 0 < s.y) → TileMap.new s = none) ∧
       ((0 < s.x ∧ 0 < s.y) → TileMap.new s = some ⟨s, []⟩)) ∧
    (∀ u : UVec2, u.x = 0 ∨ u.y = 0 → VillageMap.new u = none) ∧
    (∀ u : UVec2, 0 < u.x → 0 < u.y → u.x < 2 ^ 31 → u.y < 2 ^ 31 →
       VillageMap.new u =
         some ⟨u, [], ⟨u.as_ivec2, []⟩, ⟨u.as_ivec2, []⟩, []⟩) := by
  refine ⟨?_, ?_, ?_⟩
  · intro s
    constructor
    · intro h
      simp [TileMap.new, h]
    · intro h
      simp [TileMap.new, h]
  · intro u h
    have hz : u32_as_i32 u.x ≤ 0 ∨ u32_as_i32 u.y ≤ 0 := by
      rcases h with h | h <;> [left; right] <;> simp [u32_as_i32, h]
    have hnone : TileMap.new u.as_ivec2 = none := by
      simp only [TileMap.new, UVec2.as_ivec2, ite_eq_right_iff]
      intro hc
      rcases hz with hz | hz
      · exact absurd hc.1 (not_lt.mpr hz)
      · exact absurd hc.2 (not_lt.mpr hz)
    simp [VillageMap.new, hnone]
  · intro u hx hy hxr hyr
    have hxx : u32_as_i32 u.x = (u.x : Int) := by
      have h1 : u.x % 2 ^ 32 = u.x := Nat.mod_eq_of_lt (by omega)
      simp only [u32_as_i32, h1]
      rw [if_pos hxr]
    have hyy : u32_as_i32 u.y = (u.y : Int) := by
      have h1 : u.y % 2 ^ 32 = u.y := Nat.mod_eq_of_lt (by omega)
      simp only [u32_as_i32, h1]
      rw [if_pos hyr]
    have hsome : TileMap.new u.as_ivec2 = some ⟨u.as_ivec2, []⟩ := by
      have hx' : (0 : Int) < (u.x : Int) := by exact_mod_cast hx
      have hy' : (0 : Int) < (u.y : Int) := by exact_mod_cast hy
      simp only [TileMap.new, UVec2.as_ivec2, hxx, hyy]
      rw [if_pos ⟨hx', hy'⟩]
    simp [VillageMap.new, hsome]

theorem C9_amended_witness :
    TileMap.new ⟨2, 2⟩ = some ⟨⟨2, 2⟩, []⟩ ∧
    TileMap.new ⟨0, 2⟩ = none ∧
    VillageMap.new ⟨0, 3⟩ = none ∧
    VillageMap.new ⟨3, 2⟩ =
      some ⟨⟨3, 2⟩, [], ⟨(⟨3, 2⟩ : UVec2).as_ivec2, []⟩,
        ⟨(⟨3, 2⟩ : UVec2).as_ivec2, []⟩, []⟩ :=
  ⟨(C9_amended.1 ⟨2, 2⟩).2 (by decide),
   (C9_amended.1 ⟨0, 2⟩).1 (by decide),
   C9_amended.2.1 ⟨0, 3⟩ (Or.inl rfl),
   C9_amended.2.2 ⟨3, 2⟩ (by decide) (by decide) (by decide) (by decide)⟩

/-- Embedding of `VillageMap::isize` (map.rs lines 53-55). -/
def VillageMap.isize (m : VillageMap) : IVec2 := m.size.as_ivec2

/-- Embedding of `VillageMap::is_out_of_bounds` (map.rs lines 57-59):
`coord.cmplt(ZERO).any() || coord.cmpge(self.isize()).any()`. -/
def VillageMap.is_out_of_bounds (m : VillageMap) (coord : IVec2) : Bool :=
  (coord.x < 0 || coord.y < 0) || (m.isize.x ≤ coord.x || m.isize.y ≤ coord.y)

/-- Embedding of the `Query<&Terrain>` argument: `q_terrains.get(e).ok()` is
an optional component lookup on an entity. -/
abbrev TerrainQ : Type := Entity → Option Terrain

/-- Embedding of the successor closure of `VillageMap::pathfind`
(map.rs lines 73-100): a candidate cell is discarded when out of bounds,
when occupied in the object index, when its terrain marker resolves to
`Water` and the mover is not airborne, or when no terrain marker resolves
there (the final fall-through `None`); otherwise the move is legal with
cost 1. -/
def VillageMap.pathfindSuccessors (m : VillageMap) (q_terrains : TerrainQ)
    (is_airborne : Bool) (directions : List IVec2) (tile_coord : IVec2) :
    List (IVec2 × Int) :=
  directions.filterMap fun dir =>
    let final_coord := tile_coord + dir
    if m.is_out_of_bounds final_coord then none
    else if (m.object.get final_coord).isSome then none
    else
      match (m.terrain.get final_coord).bind q_terrains with
      | some Terrain.Water =>
          if is_airborne = false then none else some (final_coord, 1)
      | some _ => some (final_coord, 1)
      | none => none

/-- Embedding of the successor closure of `VillageMap::flood`
(map.rs lines 119-146); identical passability logic to the pathfind
closure, with `is_occupied` in place of `get(..).is_some()`. -/
def VillageMap.floodSuccessors (m : VillageMap) (q_terrains : TerrainQ)
    (is_airborne : Bool) (directions : List IVec2) (tile_coord : IVec2) :
    List IVec2 :=
  directions.filterMap fun dir =>
    let final_coord := tile_coord + dir
    if m.is_out_of_bounds final_coord then none
    else if m.object.is_occupied final_coord then none
    else
      match (m.terrain.get final_coord).bind q_terrains with
      | some Terrain.Water =>
          if is_airborne = false then none else some final_coord
      | some _ => some final_coord
      | none => none

/-- The passability rule the code actually implements: in bounds, not
occupied in the object index, and bearing a terrain marker that resolves to
a terrain kind which is not `Water` unless the mover is airborne. -/
def Passable (m : VillageMap) (q_terrains : TerrainQ) (is_airborne : Bool)
    (c : IVec2) : Prop :=
  m.is_out_of_bounds c = false ∧ m.object.get c = none ∧
    ∃ t, (m.terrain.get c).bind q_terrains = some t ∧
      (t = Terrain.Water → is_airborne = true)

theorem pathfind_step_eq_some_iff (m : VillageMap) (q : TerrainQ) (a : Bool)
    (fc : IVec2) (c : IVec2) (k : Int) :
    (if m.is_out_of_bounds fc then none
     else if (m.object.get fc).isSome then none
     else
       match (m.terrain.get fc).bind q with
       | some Terrain.Water => if a = false then none else some (fc, (1 : Int))
       | some _ => some (fc, (1 : Int))
       | none => none) = some (c, k) ↔
      c = fc ∧ k = 1 ∧ Passable m q a fc := by
  by_cases hb : m.is_out_of_bounds fc = true
  · rw [if_pos hb]
    constructor
    · intro h
      simp at h
    · rintro ⟨-, -, h1, -⟩
      rw [hb] at h1
      cases h1
  · have hbf : m.is_out_of_bounds fc = false := by simpa using hb
    rw [if_neg hb]
    by_cases ho : (m.object.get fc).isSome = true
    · rw [if_pos ho]
      constructor
      · intro h
        simp at h
      · rintro ⟨-, -, -, h2, -⟩
        rw [h2] at ho
        simp at ho
    · rw [if_neg ho]
      have ho' : m.object.get fc = none := Option.not_isSome_iff_eq_none.mp ho
      rcases hm : (m.terrain.get fc).bind q with _ | t
      · simp only [hm]
        constructor
        · intro h
          simp at h
        · rintro ⟨-, -, -, -, t, ht, -⟩
          rw [hm] at ht
          cases ht
      · cases t with
        | Water =>
          cases a with
          | false =>
            rw [if_pos rfl]
            constructor
            · intro h
              simp at h
            · rintro ⟨-, -, -, -, t, ht, hw⟩
              rw [hm] at ht
              have htw : Terrain.Water = t := by
                injection ht
              subst htw
              cases hw rfl
          | true =>
            rw [if_neg (by decide : ¬(true = false))]
            constructor
            · intro h
              simp only [Option.some.injEq, Prod.mk.injEq] at h
              obtain ⟨h1, h2⟩ := h
              exact ⟨h1.symm, h2.symm, hbf, ho', Terrain.Water, hm, fun _ => rfl⟩
            · rintro ⟨rfl, rfl, -⟩
              rfl
        | Grass =>
          constructor
          · intro h
            simp only [Option.some.injEq, Prod.mk.injEq] at h
            obtain ⟨h1, h2⟩ := h
            exact ⟨h1.symm, h2.symm, hbf, ho', Terrain.Grass, hm, fun hw => by cases hw⟩
          · rintro ⟨rfl, rfl, -⟩
            rfl
        | Gravel =>
          constructor
          · intro h
            simp only [Option.some.injEq, Prod.mk.injEq] at h
            obtain ⟨h1, h2⟩ := h
            exact ⟨h1.symm, h2.symm, hbf, ho', Terrain.Gravel, hm, fun hw => by cases hw⟩
          · rintro ⟨rfl, rfl, -⟩
            rfl

theorem flood_step_eq_some_iff (m : VillageMap) (q : TerrainQ) (a : Bool)
    (fc : IVec2) (c : IVec2) :
    (if m.is_out_of_bounds fc then none
     else if m.object.is_occupied fc then none
     else
       match (m.terrain.get fc).bind q with
       | some Terrain.Water => if a = false then none else some fc
       | some _ => some fc
       | none => none) = some c ↔
      c = fc ∧ Passable m q a fc := by
  by_cases hb : m.is_out_of_bounds fc = true
  · rw [if_pos hb]
    constructor
    · intro h
      simp at h
    · rintro ⟨-, h1, -⟩
      rw [hb] at h1
      cases h1
  · have hbf : m.is_out_of_bounds fc = false := by simpa using hb
    rw [if_neg hb]
    by_cases ho : m.object.is_occupied fc = true
    · rw [if_pos ho]
      constructor
      · intro h
        simp at h
      · rintro ⟨-, -, h2, -⟩
        rw [TileMap.is_occupied, h2] at ho
        simp at ho
    · rw [if_neg ho]
      have ho' : m.object.get fc = none :=
        Option.not_isSome_iff_eq_none.mp (by simpa [TileMap.is_occupied] using ho)
      rcases hm : (m.terrain.get fc).bind q with _ | t
      · simp only [hm]
        constructor
        · intro h
          simp at h
        · rintro ⟨-, -, -, t, ht, -⟩
          rw [hm] at ht
          cases ht
      · cases t with
        | Water =>
          cases a with
          | false =>
            rw [if_pos rfl]
            constructor
            · intro h
              simp at h
            · rintro ⟨-, -, -, t, ht, hw⟩
              rw [hm] at ht
              have htw : Terrain.Water = t := by
                injection ht
              subst htw
              cases hw rfl
          | true =>
            rw [if_neg (by decide : ¬(true = false))]
            constructor
            · intro h
              simp only [Option.some.injEq] at h
              exact ⟨h.symm, hbf, ho', Terrain.Water, hm, fun _ => rfl⟩
            · rintro ⟨rfl, -⟩
              rfl
        | Grass =>
          constructor
          · intro h
            simp only [Option.some.injEq] at h
            exact ⟨h.symm, hbf, ho', Terrain.Grass, hm, fun hw => by cases hw⟩
          · rintro ⟨rfl, -⟩
            rfl
        | Gravel =>
          constructor
          · intro h
            simp only [Option.some.injEq] at h
            exact ⟨h.symm, hbf, ho', Terrain.Gravel, hm, fun hw => by cases hw⟩
          · rintro ⟨rfl, -⟩
            rfl

/-- Membership characterization of the pathfind successor closure. -/
theorem mem_pathfindSuccessors_iff (m : VillageMap) (q : TerrainQ) (a : Bool)
    (dirs : List IVec2) (tile c : IVec2) (k : Int) :
    (c, k) ∈ m.pathfindSuccessors q a dirs tile ↔
      k = 1 ∧ (∃ dir ∈ dirs, c = tile + dir) ∧ Passable m q a c := by
  unfold VillageMap.pathfindSuccessors
  rw [List.mem_filterMap]
  constructor
  · rintro ⟨dir, hdir, heq⟩
    rw [pathfind_step_eq_some_iff] at heq
    obtain ⟨h1, h2, h3⟩ := heq
    exact ⟨h2, ⟨dir, hdir, h1⟩, h1 ▸ h3⟩
  · rintro ⟨rfl, ⟨dir, hdir, rfl⟩, hp⟩
    exact ⟨dir, hdir, (pathfind_step_eq_some_iff m q a _ _ _).mpr ⟨rfl, rfl, hp⟩⟩

/-- Membership characterization of the flood successor closure. -/
theorem mem_floodSuccessors_iff (m : VillageMap) (q : TerrainQ) (a : Bool)
    (dirs : List IVec2) (tile c : IVec2) :
    c ∈ m.floodSuccessors q a dirs tile ↔
      (∃ dir ∈ dirs, c = tile + dir) ∧ Passable m q a c := by
  unfold VillageMap.floodSuccessors
  rw [List.mem_filterMap]
  constructor
  · rintro ⟨dir, hdir, heq⟩
    rw [flood_step_eq_some_iff] at heq
    obtain ⟨h1, h3⟩ := heq
    exact ⟨⟨dir, hdir, h1⟩, h1 ▸ h3⟩
  · rintro ⟨⟨dir, hdir, rfl⟩, hp⟩
    exact ⟨dir, hdir, (flood_step_eq_some_iff m q a _ _).mpr ⟨rfl, hp⟩⟩

/-- A 2-by-2 board holding no terrain markers and no objects. -/
def noTerrainMap : VillageMap :=
  ⟨⟨2, 2⟩, [], ⟨⟨2, 2⟩, []⟩, ⟨⟨2, 2⟩, []⟩, []⟩

/-- C1 as stated fails: on a board without terrain markers, the cell
`(1, 0)` is in bounds and unoccupied, yet neither successor closure offers
the move to it — the implementation's final fall-through discards cells
with no terrain marker instead of treating them as passable. -/
theorem C1_counterexample :
    noTerrainMap.is_out_of_bounds ⟨1, 0⟩ = false ∧
    noTerrainMap.object.get ⟨1, 0⟩ = none ∧
    noTerrainMap.terrain.get ⟨1, 0⟩ = none ∧
    noTerrainMap.pathfindSuccessors (fun _ => none) false ROOK_MOVES ⟨0, 0⟩ = [] ∧
    noTerrainMap.floodSuccessors (fun _ => none) false ROOK_MOVES ⟨0, 0⟩ = [] := by
  refine ⟨by decide, rfl, rfl, rfl, rfl⟩

/-- C1 amended: in both successor closures, a candidate cell that is in
bounds and unoccupied is a legal move of unit cost exactly when a terrain
marker resolves there to a kind that is not `Water`, or to any kind when the
mover is airborne; cells with no terrain marker are not passable. -/
theorem C1_amended (m : VillageMap) (q : TerrainQ) (a : Bool)
    (dirs : List IVec2) (tile dir : IVec2) (hdir : dir ∈ dirs)
    (hin : m.is_out_of_bounds (tile + dir) = false)
    (hunocc : m.object.get (tile + dir) = none) :
    ((tile + dir, (1 : Int)) ∈ m.pathfindSuccessors q a dirs tile ↔
       ∃ t, (m.terrain.get (tile + dir)).bind q = some t ∧
         (t = Terrain.Water → a = true)) ∧
    ((tile + dir) ∈ m.floodSuccessors q a dirs tile ↔
       ∃ t, (m.terrain.get (tile + dir)).bind q = some t ∧
         (t = Terrain.Water → a = true)) := by
  constructor
  · rw [mem_pathfindSuccessors_iff]
    constructor
    · rintro ⟨-, -, -, -, ht⟩
      exact ht
    · intro ht
      exact ⟨rfl, ⟨dir, hdir, rfl⟩, hin, hunocc, ht⟩
  · rw [mem_floodSuccessors_iff]
    constructor
    · rintro ⟨-, -, -, ht⟩
      exact ht
    · intro ht
      exact ⟨⟨dir, hdir, rfl⟩, hin, hunocc, ht⟩

/-- A 2-by-2 example board: a grass terrain marker (entity 7) on cell
`(1, 0)`, no objects. -/
def grassMap : VillageMap :=
  ⟨⟨2, 2⟩, [], ⟨⟨2, 2⟩, [(⟨1, 0⟩, 7)]⟩, ⟨⟨2, 2⟩, []⟩, []⟩

/-- An example terrain query: entity 7 carries a grass terrain component. -/
def grassQ : TerrainQ := fun e => if e = 7 then some Terrain.Grass else none

theorem C1_amended_witness :
    EAST ∈ ROOK_MOVES ∧
    grassMap.is_out_of_bounds (⟨0, 0⟩ + EAST) = false ∧
    grassMap.object.get (⟨0, 0⟩ + EAST) = none ∧
    ((⟨0, 0⟩ + EAST, (1 : Int)) ∈
        grassMap.pathfindSuccessors grassQ false ROOK_MOVES ⟨0, 0⟩ ↔
      ∃ t, (grassMap.terrain.get (⟨0, 0⟩ + EAST)).bind grassQ = some t ∧
        (t = Terrain.Water → false = true)) :=
  ⟨by decide, by decide, by decide,
   (C1_amended grassMap grassQ false ROOK_MOVES ⟨0, 0⟩ EAST (by decide)
      (by decide) (by decide)).1⟩

/-- One BFS level expansion: successor cells of the frontier that are not
yet visited, deduplicated. -/
def floodExpand (succ : IVec2 → List IVec2) (visited frontier : List IVec2) :
    List IVec2 :=
  ((frontier.flatMap succ).filter (fun c => decide (c ∉ visited))).dedup

/-- Level-by-level BFS: runs `n` rounds of frontier expansion, accumulating
every newly discovered cell into the visited list. -/
def floodGo (succ : IVec2 → List IVec2) :
    Nat → List IVec2 → List IVec2 → List IVec2
  | 0, visited, _ => visited
  | n + 1, visited, frontier =>
      floodGo succ n (visited ++ floodExpand succ visited frontier)
        (floodExpand succ visited frontier)

/-- Modelled from the spec: `find_all_within_distance_unweighted` from
`crate::path_finding` (repository code not under `src/`). Breadth-first
expansion from `start`, each edge cost 1, producing the set of all positions
reachable within `max_distance` moves, inclusive of `start`, each position
recorded at most once (at its first/shortest discovery). -/
def find_all_within_distance_unweighted (start : IVec2) (max_distance : Nat)
    (succ : IVec2 → List IVec2) : List IVec2 :=
  floodGo succ max_distance [start] [start]

/-- Embedding of `VillageMap::flood` (map.rs lines 111-147). -/
def VillageMap.flood (m : VillageMap) (start : IVec2) (max_distance : Nat)
    (directions : List IVec2) (is_airborne : Bool) (q_terrains : TerrainQ) :
    List IVec2 :=
  find_all_within_distance_unweighted start max_distance
    (m.floodSuccessors q_terrains is_airborne directions)

/-- Reachability from `start` in at most `n` single steps of a successor
function. -/
def ReachWithin (succ : IVec2 → List IVec2) (start : IVec2) :
    Nat → IVec2 → Prop
  | 0, c => c = start
  | n + 1, c => ReachWithin succ start n c ∨
      ∃ b, ReachWithin succ start n b ∧ c ∈ succ b

theorem mem_floodExpand_iff (succ : IVec2 → List IVec2)
    (visited frontier : List IVec2) (c : IVec2) :
    c ∈ floodExpand succ visited frontier ↔
      (∃ b ∈ frontier, c ∈ succ b) ∧ c ∉ visited := by
  unfold floodExpand
  rw [List.mem_dedup, List.mem_filter, List.mem_flatMap]
  simp

/-- Main invariant lemma for the level BFS: if `visited` is exactly the
cells reachable within `k` steps and the cells reachable within `k+1` steps
are the visited ones plus the successors of the frontier, then after `n`
more rounds the accumulated list is exactly the cells reachable within
`k + n` steps, without duplicates. -/
theorem floodGo_spec (succ : IVec2 → List IVec2) (start : IVec2) :
    ∀ (n k : Nat) (visited frontier : List IVec2),
      (∀ c, c ∈ visited ↔ ReachWithin succ start k c) →
      (∀ c, ReachWithin succ start (k + 1) c ↔
        (c ∈ visited ∨ ∃ b ∈ frontier, c ∈ succ b)) →
      visited.Nodup →
      (floodGo succ n visited frontier).Nodup ∧
        ∀ c, c ∈ floodGo succ n visited frontier ↔
          ReachWithin succ start (k + n) c := by
  intro n
  induction n with
  | zero =>
    intro k visited frontier h1 _h2 h3
    exact ⟨h3, fun c => by rw [Nat.add_zero]; exact h1 c⟩
  | succ n ih =>
    intro k visited frontier h1 h2 h3
    have hnew : ∀ c, c ∈ floodExpand succ visited frontier ↔
        (∃ b ∈ frontier, c ∈ succ b) ∧ c ∉ visited :=
      mem_floodExpand_iff succ visited frontier
    have h1' : ∀ c, c ∈ visited ++ floodExpand succ visited frontier ↔
        ReachWithin succ start (k + 1) c := by
      intro c
      rw [List.mem_append, hnew c, h2 c]
      constructor
      · rintro (hv | ⟨hs, -⟩)
        · exact Or.inl hv
        · exact Or.inr hs
      · rintro (hv | hs)
        · exact Or.inl hv
        · by_cases hv' : c ∈ visited
          · exact Or.inl hv'
          · exact Or.inr ⟨hs, hv'⟩
    have h2' : ∀ c, ReachWithin succ start (k + 1 + 1) c ↔
        (c ∈ visited ++ floodExpand succ visited frontier ∨
          ∃ b ∈ floodExpand succ visited frontier, c ∈ succ b) := by
      intro c
      constructor
      · intro h
        rcases h with h | ⟨b, hb, hcb⟩
        · exact Or.inl ((h1' c).mpr h)
        · have hb' : b ∈ visited ++ floodExpand succ visited frontier :=
            (h1' b).mpr hb
          rcases List.mem_append.mp hb' with hbv | hbn
          · have : ReachWithin succ start k b := (h1 b).mp hbv
            exact Or.inl ((h1' c).mpr (Or.inr ⟨b, this, hcb⟩))
          · exact Or.inr ⟨b, hbn, hcb⟩
      · intro h
        rcases h with h | ⟨b, hb, hcb⟩
        · exact Or.inl ((h1' c).mp h)
        · have hb' : ReachWithin succ start (k + 1) b :=
            (h1' b).mp (List.mem_append.mpr (Or.inr hb))
          exact Or.inr ⟨b, hb', hcb⟩
    have h3' : (visited ++ floodExpand succ visited frontier).Nodup := by
      rw [List.nodup_append]
      refine ⟨h3, List.nodup_dedup _, ?_⟩
      intro a ha hb
      exact ((hnew a).mp hb).2 ha
    have := ih (k + 1) (visited ++ floodExpand succ visited frontier)
      (floodExpand succ visited frontier) h1' h2' h3'
    refine ⟨this.1, fun c => ?_⟩
    rw [show k + (n + 1) = k + 1 + n by omega]
    exact this.2 c

/-- The BFS engine computes exactly bounded reachability, without
duplicates. -/
theorem find_all_spec (start : IVec2) (max_distance : Nat)
    (succ : IVec2 → List IVec2) :
    (find_all_within_distance_unweighted start max_distance succ).Nodup ∧
      ∀ c, c ∈ find_all_within_distance_unweighted start max_distance succ ↔
        ReachWithin succ start max_distance c := by
  have h := floodGo_spec succ start max_distance 0 [start] [start]
    (fun c => by simp [ReachWithin])
    (fun c => by simp [ReachWithin])
    (List.nodup_singleton start)
  refine ⟨h.1, fun c => ?_⟩
  have := h.2 c
  rwa [Nat.zero_add] at this

/-- Reachability from `start` by at most `n` legal moves, where a legal
move goes one direction-step into a cell passable under the implemented
rule. -/
def ReachPassable (m : VillageMap) (q : TerrainQ) (a : Bool)
    (dirs : List IVec2) (start : IVec2) : Nat → IVec2 → Prop
  | 0, c => c = start
  | n + 1, c => ReachPassable m q a dirs start n c ∨
      ∃ b, ReachPassable m q a dirs start n b ∧ (∃ d ∈ dirs, c = b + d) ∧
        Passable m q a c

theorem reachWithin_flood_iff (m : VillageMap) (q : TerrainQ) (a : Bool)
    (dirs : List IVec2) (start : IVec2) :
    ∀ (n : Nat) (c : IVec2),
      ReachWithin (m.floodSuccessors q a dirs) start n c ↔
        ReachPassable m q a dirs start n c := by
  intro n
  induction n with
  | zero => intro c; exact Iff.rfl
  | succ n ih =>
    intro c
    constructor
    · rintro (h | ⟨b, hb, hcb⟩)
      · exact Or.inl ((ih c).mp h)
      · obtain ⟨hd, hp⟩ := (mem_floodSuccessors_iff m q a dirs b c).mp hcb
        exact Or.inr ⟨b, (ih b).mp hb, hd, hp⟩
    · rintro (h | ⟨b, hb, hd, hp⟩)
      · exact Or.inl ((ih c).mpr h)
      · exact Or.inr ⟨b, (ih b).mpr hb,
          (mem_floodSuccessors_iff m q a dirs b c).mpr ⟨hd, hp⟩⟩

/-- The passability rule exactly as the claim words it: in bounds, not
occupied in the object index, and Water terrain only if airborne (no
requirement that a terrain marker exist). -/
def PassableClaim (m : VillageMap) (q : TerrainQ) (a : Bool) (c : IVec2) :
    Prop :=
  m.is_out_of_bounds c = false ∧ m.object.get c = none ∧
    ((m.terrain.get c).bind q = some Terrain.Water → a = true)

/-- Reachability from `start` by at most `n` moves under the claim's
passability rule. -/
def ReachClaim (m : VillageMap) (q : TerrainQ) (a : Bool)
    (dirs : List IVec2) (start : IVec2) : Nat → IVec2 → Prop
  | 0, c => c = start
  | n + 1, c => ReachClaim m q a dirs start n c ∨
      ∃ b, ReachClaim m q a dirs start n b ∧ (∃ d ∈ dirs, c = b + d) ∧
        PassableClaim m q a c

/-- C5 as stated fails: on a board with no terrain markers, `(1, 0)` is
reachable from `(0, 0)` in one move under the claim's stated rules (in
bounds, unoccupied, not Water), yet flood does not return it, because the
implementation additionally requires a terrain marker to be present. -/
theorem C5_counterexample :
    ReachClaim noTerrainMap (fun _ => none) false ROOK_MOVES ⟨0, 0⟩ 1 ⟨1, 0⟩ ∧
      (⟨1, 0⟩ : IVec2) ∉
        noTerrainMap.flood ⟨0, 0⟩ 1 ROOK_MOVES false (fun _ => none) := by
  constructor
  · exact Or.inr ⟨⟨0, 0⟩, rfl, ⟨EAST, by decide, by decide⟩,
      by decide, rfl, by intro h; cases h⟩
  · decide

/-- C5 amended: flood returns exactly the set of positions reachable from
`start` in at most `max_distance` single-step moves under the implemented
passability rule (in bounds, not occupied in the object index, bearing a
terrain marker that is not Water unless airborne), inclusive of `start`,
each position appearing at most once. -/
theorem C5_amended (m : VillageMap) (q : TerrainQ) (a : Bool)
    (dirs : List IVec2) (start : IVec2) (maxd : Nat) :
    (m.flood start maxd dirs a q).Nodup ∧
      ∀ c, c ∈ m.flood start maxd dirs a q ↔
        ReachPassable m q a dirs start maxd c := by
  have h := find_all_spec start maxd (m.floodSuccessors q a dirs)
  exact ⟨h.1, fun c =>
    (h.2 c).trans (reachWithin_flood_iff m q a dirs start maxd c)⟩

theorem C5_amended_witness :
    (grassMap.flood ⟨0, 0⟩ 2 ROOK_MOVES false grassQ).Nodup ∧
      ((⟨1, 0⟩ : IVec2) ∈ grassMap.flood ⟨0, 0⟩ 2 ROOK_MOVES false grassQ ↔
        ReachPassable grassMap grassQ false ROOK_MOVES ⟨0, 0⟩ 2 ⟨1, 0⟩) :=
  ⟨(C5_amended grassMap grassQ false ROOK_MOVES ⟨0, 0⟩ 2).1,
   (C5_amended grassMap grassQ false ROOK_MOVES ⟨0, 0⟩ 2).2 ⟨1, 0⟩⟩

/-- An A* frontier entry: the node, the reversed path from the start to the
node (node first, start last), and the accumulated cost. -/
structure AstarEntry where
  node : IVec2
  revPath : List IVec2
  cost : Int
deriving DecidableEq, Repr

/-- Extract the leftmost entry minimizing `cost + heuristic` from the open
list, returning it together with the remaining entries. -/
def pickMin (heur : IVec2 → Int) :
    List AstarEntry → Option (AstarEntry × List AstarEntry)
  | [] => none
  | e :: rest =>
    match pickMin heur rest with
    | none => some (e, [])
    | some (b, brest) =>
        if e.cost + heur e.node ≤ b.cost + heur b.node then some (e, rest)
        else some (b, e :: brest)

theorem pickMin_eq_none_iff (heur : IVec2 → Int) (l : List AstarEntry) :
    pickMin heur l = none ↔ l = [] := by
  cases l with
  | nil => simp [pickMin]
  | cons e rest =>
    constructor
    · intro h
      unfold pickMin at h
      rcases hr : pickMin heur rest with _ | b
      · rw [hr] at h
        cases h
      · rw [hr] at h
        dsimp only at h
        by_cases hc : e.cost + heur e.node ≤ b.1.cost + heur b.1.node
        · rw [if_pos hc] at h
          cases h
        · rw [if_neg hc] at h
          cases h
    · intro h
      cases h

theorem pickMin_mem (heur : IVec2 → Int) :
    ∀ (l : List AstarEntry) (e : AstarEntry) (rest : List AstarEntry),
      pickMin heur l = some (e, rest) → e ∈ l ∧ ∀ x ∈ rest, x ∈ l := by
  intro l
  induction l with
  | nil => intro e rest h; cases h
  | cons a tl ih =>
    intro e rest h
    unfold pickMin at h
    rcases hr : pickMin heur tl with _ | b
    · rw [hr] at h
      dsimp only at h
      injection h with h'
      obtain ⟨h1, h2⟩ := Prod.mk.injEq .. ▸ h'
      subst h1
      subst h2
      exact ⟨List.mem_cons_self _ _, by intro x hx; cases hx⟩
    · rw [hr] at h
      dsimp only at h
      obtain ⟨hb, hbr⟩ := ih b.1 b.2 (by rw [hr])
      by_cases hc : a.cost + heur a.node ≤ b.1.cost + heur b.1.node
      · rw [if_pos hc] at h
        injection h with h'
        obtain ⟨h1, h2⟩ := Prod.mk.injEq .. ▸ h'
        subst h1
        subst h2
        exact ⟨List.mem_cons_self _ _, fun x hx => List.mem_cons_of_mem _ hx⟩
      · rw [if_neg hc] at h
        injection h with h'
        obtain ⟨h1, h2⟩ := Prod.mk.injEq .. ▸ h'
        subst h1
        subst h2
        refine ⟨List.mem_cons_of_mem _ hb, ?_⟩
        intro x hx
        rcases List.mem_cons.mp hx with hx | hx
        · exact hx ▸ List.mem_cons_self _ _
        · exact List.mem_cons_of_mem _ (hbr x hx)

/-- One iteration of the best-first search loop: pop the open entry
minimizing cost plus heuristic; if it satisfies the goal, return its path
and cost; skip it if its node was already expanded; otherwise expand its
successors and continue via `next`. -/
def astarStep (succ : IVec2 → List (IVec2 × Int)) (heur : IVec2 → Int)
    (goal : IVec2 → Bool)
    (next : List AstarEntry → List IVec2 → Option (List IVec2 × Int))
    (frontier : List AstarEntry) (visited : List IVec2) :
    Option (List IVec2 × Int) :=
  match pickMin heur frontier with
  | none => none
  | some (e, rest) =>
    if goal e.node then some (e.revPath.reverse, e.cost)
    else if e.node ∈ visited then next rest visited
    else next
      (rest ++ (succ e.node).map (fun s => ⟨s.1, s.1 :: e.revPath, e.cost + s.2⟩))
      (e.node :: visited)

/-- The fuel-bounded best-first search loop modelling the `astar` function
of the `pathfinding` crate. -/
def astarGo (succ : IVec2 → List (IVec2 × Int)) (heur : IVec2 → Int)
    (goal : IVec2 → Bool) :
    Nat → List AstarEntry → List IVec2 → Option (List IVec2 × Int)
  | 0, _, _ => none
  | fuel + 1, frontier, visited =>
      astarStep succ heur goal (astarGo succ heur goal fuel) frontier visited

/-- Embedding of the A* heuristic (map.rs line 103):
`IVec2::length_squared(target.wrapping_sub(tile_coord))`, with exact
integer arithmetic. -/
def heurOf (target c : IVec2) : Int :=
  (target.x - c.x) * (target.x - c.x) + (target.y - c.y) * (target.y - c.y)

/-- Fuel bound for the search loop: more pops than can ever happen (each
cell is expanded at most once, each expansion pushes at most one entry per
direction, plus the initial entry and the visited skips). -/
def astarFuel (m : VillageMap) (dirs : List IVec2) : Nat :=
  ((m.isize.x * m.isize.y).toNat + 1) * (dirs.length + 2) + 1

/-- Embedding of `VillageMap::pathfind` (map.rs lines 62-107): the `astar`
function of the external `pathfinding` crate applied to the successor
closure, squared-distance heuristic and exact-equality goal test, modelled
as the fuel-bounded search loop `astarGo`. -/
def VillageMap.pathfind (m : VillageMap) (q_terrains : TerrainQ)
    (start target : IVec2) (directions : List IVec2) (is_airborne : Bool) :
    Option (List IVec2 × Int) :=
  astarGo (m.pathfindSuccessors q_terrains is_airborne directions)
    (heurOf target) (fun c => decide (c = target)) (astarFuel m directions)
    [⟨start, [start], 0⟩] []

/-- A reversed path: the list ends at `start` and each element is a
successor of the element after it. -/
def RevChain (succ : IVec2 → List (IVec2 × Int)) (start : IVec2) :
    List IVec2 → Prop
  | [] => False
  | [a] => a = start
  | a :: b :: rest => (∃ k, (a, k) ∈ succ b) ∧ RevChain succ start (b :: rest)

/-- The invariant carried by every frontier entry: its reversed path is a
successor chain from `start`, heads at its node, and its cost counts the
edges. -/
def EntryInv (succ : IVec2 → List (IVec2 × Int)) (start : IVec2)
    (e : AstarEntry) : Prop :=
  RevChain succ start e.revPath ∧ e.revPath.head? = some e.node ∧
    (e.revPath.length : Int) = e.cost + 1

theorem revChain_getLast (succ : IVec2 → List (IVec2 × Int)) (start : IVec2) :
    ∀ l, RevChain succ start l → l.getLast? = some start := by
  intro l
  induction l with
  | nil => intro h; cases h
  | cons a tl ih =>
    intro h
    cases tl with
    | nil =>
      have ha : a = start := h
      simp [ha]
    | cons b rest =>
      obtain ⟨-, h2⟩ := h
      rw [List.getLast?_cons_cons]
      exact ih h2

theorem revChain_chain (succ : IVec2 → List (IVec2 × Int)) (start : IVec2) :
    ∀ l, RevChain succ start l →
      List.Chain' (fun x y => ∃ k, (x, k) ∈ succ y) l := by
  intro l
  induction l with
  | nil => intro h; cases h
  | cons a tl ih =>
    intro h
    cases tl with
    | nil => exact List.chain'_singleton a
    | cons b rest =>
      obtain ⟨h1, h2⟩ := h
      exact List.chain'_cons.mpr ⟨h1, ih h2⟩

theorem astarGo_succ_none (succ : IVec2 → List (IVec2 × Int))
    (heur : IVec2 → Int) (goal : IVec2 → Bool) (fuel : Nat)
    (frontier : List AstarEntry) (visited : List IVec2)
    (hp : pickMin heur frontier = none) :
    astarGo succ heur goal (fuel + 1) frontier visited = none := by
  show astarStep succ heur goal (astarGo succ heur goal fuel) frontier visited = none
  unfold astarStep
  rw [hp]

theorem astarGo_succ_some (succ : IVec2 → List (IVec2 × Int))
    (heur : IVec2 → Int) (goal : IVec2 → Bool) (fuel : Nat)
    (frontier : List AstarEntry) (visited : List IVec2)
    (e : AstarEntry) (rest : List AstarEntry)
    (hp : pickMin heur frontier = some (e, rest)) :
    astarGo succ heur goal (fuel + 1) frontier visited =
      (if goal e.node then some (e.revPath.reverse, e.cost)
       else if e.node ∈ visited then astarGo succ heur goal fuel rest visited
       else astarGo succ heur goal fuel
         (rest ++ (succ e.node).map
           (fun s => ⟨s.1, s.1 :: e.revPath, e.cost + s.2⟩))
         (e.node :: visited)) := by
  show astarStep succ heur goal (astarGo succ heur goal fuel) frontier visited = _
  unfold astarStep
  rw [hp]

/-- Soundness of the search loop: any returned result is the reverse of a
valid entry whose node satisfies the goal. -/
theorem astarGo_sound (succ : IVec2 → List (IVec2 × Int))
    (heur : IVec2 → Int) (goal : IVec2 → Bool) (start : IVec2)
    (hunit : ∀ x n k, (n, k) ∈ succ x → k = 1) :
    ∀ (fuel : Nat) (frontier : List AstarEntry) (visited : List IVec2),
      (∀ e ∈ frontier, EntryInv succ start e) →
      ∀ p c, astarGo succ heur goal fuel frontier visited = some (p, c) →
        ∃ e, EntryInv succ start e ∧ goal e.node = true ∧
          p = e.revPath.reverse ∧ c = e.cost := by
  intro fuel
  induction fuel with
  | zero => intro frontier visited _ p c h; cases h
  | succ fuel ih =>
    intro frontier visited hinv p c h
    rcases hp : pickMin heur frontier with _ | er
    · rw [astarGo_succ_none succ heur goal fuel frontier visited hp] at h
      cases h
    · obtain ⟨e, rest⟩ := er
      rw [astarGo_succ_some succ heur goal fuel frontier visited e rest hp] at h
      obtain ⟨hmem, hsub⟩ := pickMin_mem heur frontier e rest hp
      by_cases hg : goal e.node = true
      · rw [if_pos hg] at h
        injection h with h'
        obtain ⟨h1, h2⟩ := Prod.mk.injEq .. ▸ h'
        exact ⟨e, hinv e hmem, hg, h1.symm, h2.symm⟩
      · rw [if_neg hg] at h
        by_cases hv : e.node ∈ visited
        · rw [if_pos hv] at h
          exact ih rest visited (fun x hx => hinv x (hsub x hx)) p c h
        · rw [if_neg hv] at h
          refine ih _ _ ?_ p c h
          intro x hx
          rcases List.mem_append.mp hx with hx | hx
          · exact hinv x (hsub x hx)
          · obtain ⟨s, hs, hxs⟩ := List.mem_map.mp hx
            obtain ⟨hrc, hhd, hlen⟩ := hinv e hmem
            subst hxs
            obtain ⟨n, k⟩ := s
            have hcons : ∃ tl, e.revPath = e.node :: tl := by
              cases hh : e.revPath with
              | nil => rw [hh] at hhd; cases hhd
              | cons a tl =>
                rw [hh] at hhd
                simp only [List.head?_cons, Option.some.injEq] at hhd
                exact ⟨tl, by rw [hhd]⟩
            obtain ⟨tl, htl⟩ := hcons
            refine ⟨?_, ?_, ?_⟩
            · show RevChain succ start (n :: e.revPath)
              rw [htl]
              exact ⟨⟨k, hs⟩, htl ▸ hrc⟩
            · rfl
            · show ((n :: e.revPath).length : Int) = e.cost + k + 1
              have hk : k = 1 := hunit e.node n k hs
              subst hk
              simp only [List.length_cons]
              push_cast
              omega

theorem astarGo_start_goal (succ : IVec2 → List (IVec2 × Int))
    (heur : IVec2 → Int) (goal : IVec2 → Bool) (fuel : Nat) (start : IVec2)
    (hg : goal start = true) :
    astarGo succ heur goal (fuel + 1) [⟨start, [start], 0⟩] [] =
      some ([start], 0) := by
  have hp : pickMin heur [⟨start, [start], 0⟩] =
      some (⟨start, [start], 0⟩, []) := rfl
  rw [astarGo_succ_some succ heur goal fuel _ [] _ _ hp]
  rw [if_pos hg]
  rfl

/-- The unit-cost property of the pathfind successor closure. -/
theorem pathfindSuccessors_unit (m : VillageMap) (q : TerrainQ) (a : Bool)
    (dirs : List IVec2) :
    ∀ x n k, (n, k) ∈ m.pathfindSuccessors q a dirs x → k = 1 := by
  intro x n k h
  exact ((mem_pathfindSuccessors_iff m q a dirs x n k).mp h).1

/-- Soundness of `pathfind`: every returned path heads at `start`, ends at
`target`, is chained by the successor closure, and has length `cost + 1`. -/
theorem pathfind_sound (m : VillageMap) (q : TerrainQ)
    (start target : IVec2) (dirs : List IVec2) (a : Bool) :
    ∀ p c, m.pathfind q start target dirs a = some (p, c) →
      p.head? = some start ∧ p.getLast? = some target ∧
      List.Chain' (fun x y => ∃ k, (y, k) ∈ m.pathfindSuccessors q a dirs x) p ∧
      (p.length : Int) = c + 1 := by
  intro p c h
  have := astarGo_sound (m.pathfindSuccessors q a dirs) (heurOf target)
    (fun c => decide (c = target)) start
    (pathfindSuccessors_unit m q a dirs)
    (astarFuel m dirs) [⟨start, [start], 0⟩] []
    (by
      intro e he
      rw [List.mem_singleton] at he
      subst he
      exact ⟨rfl, rfl, by norm_num⟩)
    p c h
  obtain ⟨e, ⟨hrc, hhd, hlen⟩, hg, hpe, hce⟩ := this
  have htgt : e.node = target := by
    simpa using hg
  subst hpe
  refine ⟨?_, ?_, ?_, ?_⟩
  · rw [List.head?_reverse]
    exact revChain_getLast _ start e.revPath hrc
  · rw [List.getLast?_reverse, hhd, htgt]
  · exact List.chain'_reverse.mpr (revChain_chain _ start e.revPath hrc)
  · rw [List.length_reverse, hlen, hce]

/-- C4: every returned path is a successor chain running from `start` to
`target` with length `cost + 1`; `start = target` yields the singleton path
with cost 0; and when no successor chain from `start` to `target` exists
the result is `none`. -/
theorem C4_pathfind_shape (m : VillageMap) (q : TerrainQ)
    (start target : IVec2) (dirs : List IVec2) (a : Bool) :
    (∀ p c, m.pathfind q start target dirs a = some (p, c) →
       p.head? = some start ∧ p.getLast? = some target ∧
       List.Chain' (fun x y => ∃ k, (y, k) ∈ m.pathfindSuccessors q a dirs x) p ∧
       (p.length : Int) = c + 1) ∧
    (start = target → m.pathfind q start target dirs a = some ([start], 0)) ∧
    ((¬ ∃ p : List IVec2, p.head? = some start ∧ p.getLast? = some target ∧
        List.Chain' (fun x y => ∃ k, (y, k) ∈ m.pathfindSuccessors q a dirs x) p) →
      m.pathfind q start target dirs a = none) := by
  have hsound := pathfind_sound m q start target dirs a
  refine ⟨hsound, ?_, ?_⟩
  · intro hst
    subst hst
    show astarGo _ _ _ (astarFuel m dirs) _ _ = _
    have hfuel : astarFuel m dirs = (astarFuel m dirs - 1) + 1 := by
      unfold astarFuel
      omega
    rw [hfuel]
    exact astarGo_start_goal _ _ _ _ start (by simp)
  · intro hnone
    cases h : m.pathfind q start target dirs a with
    | none => rfl
    | some pc =>
      obtain ⟨p, c⟩ := pc
      obtain ⟨h1, h2, h3, -⟩ := hsound p c h
      exact absurd ⟨p, h1, h2, h3⟩ hnone

/-- A 3-by-3 board with grass terrain markers everywhere and no objects. -/
def openMap3 : VillageMap :=
  ⟨⟨3, 3⟩, [],
   ⟨⟨3, 3⟩, [(⟨0, 0⟩, 10), (⟨1, 0⟩, 11), (⟨2, 0⟩, 12), (⟨0, 1⟩, 13),
     (⟨1, 1⟩, 14), (⟨2, 1⟩, 15), (⟨0, 2⟩, 16), (⟨1, 2⟩, 17), (⟨2, 2⟩, 18)]⟩,
   ⟨⟨3, 3⟩, []⟩, []⟩

/-- A terrain query under which every terrain entity is grass. -/
def grassAllQ : TerrainQ := fun _ => some Terrain.Grass

theorem C4_pathfind_shape_witness :
    (([⟨0, 0⟩, ⟨1, 0⟩, ⟨2, 0⟩] : List IVec2).head? = some ⟨0, 0⟩ ∧
     ([⟨0, 0⟩, ⟨1, 0⟩, ⟨2, 0⟩] : List IVec2).getLast? = some ⟨2, 0⟩ ∧
     List.Chain' (fun x y => ∃ k,
       (y, k) ∈ openMap3.pathfindSuccessors grassAllQ false ROOK_MOVES x)
       [⟨0, 0⟩, ⟨1, 0⟩, ⟨2, 0⟩] ∧
     ((([⟨0, 0⟩, ⟨1, 0⟩, ⟨2, 0⟩] : List IVec2).length : Int) = 2 + 1)) ∧
    openMap3.pathfind grassAllQ ⟨1, 1⟩ ⟨1, 1⟩ ROOK_MOVES false =
      some ([⟨1, 1⟩], 0) :=
  ⟨(C4_pathfind_shape openMap3 grassAllQ ⟨0, 0⟩ ⟨2, 0⟩ ROOK_MOVES false).1
     [⟨0, 0⟩, ⟨1, 0⟩, ⟨2, 0⟩] 2 (by decide),
   (C4_pathfind_shape openMap3 grassAllQ ⟨1, 1⟩ ⟨1, 1⟩ ROOK_MOVES false).2.1 rfl⟩

/-- In a nonempty chain of length at least two, the last element is entered
by a step whose source is either the head of the list or itself entered by
a step. -/
theorem chain'_last_step {α : Type} (R : α → α → Prop) :
    ∀ p : List α, List.Chain' R p → 2 ≤ p.length →
      ∃ x y, R x y ∧ p.getLast? = some y ∧
        (p.head? = some x ∨ ∃ w, R w x) := by
  intro p
  induction p with
  | nil =>
    intro _ hlen
    simp at hlen
  | cons a tl ih =>
    intro hc hlen
    cases tl with
    | nil => simp at hlen
    | cons b rest =>
      obtain ⟨hab, hc'⟩ := List.chain'_cons.mp hc
      cases rest with
      | nil => exact ⟨a, b, hab, by simp, Or.inl rfl⟩
      | cons r rs =>
        obtain ⟨x, y, hxy, hlast, hx⟩ := ih hc' (by simp)
        refine ⟨x, y, hxy, ?_, ?_⟩
        · rw [List.getLast?_cons_cons]
          exact hlast
        · rcases hx with hx | hx
          · right
            have hxb : b = x := by simpa using hx
            exact ⟨a, hxb ▸ hab⟩
          · exact Or.inr hx

/-- Every rook move has an inverse rook move. -/
theorem rook_neg :
    ∀ d ∈ ROOK_MOVES, ∃ d', d' ∈ ROOK_MOVES ∧
      ∀ s t : IVec2, t = s + d → s = t + d' := by
  intro d hd
  fin_cases hd
  · refine ⟨SOUTH, by decide, ?_⟩
    intro s t ht
    subst ht
    cases s
    simp [IVec2.add_def, NORTH, SOUTH]
  · refine ⟨WEST, by decide, ?_⟩
    intro s t ht
    subst ht
    cases s
    simp [IVec2.add_def, EAST, WEST]
  · refine ⟨NORTH, by decide, ?_⟩
    intro s t ht
    subst ht
    cases s
    simp [IVec2.add_def, NORTH, SOUTH]
  · refine ⟨EAST, by decide, ?_⟩
    intro s t ht
    subst ht
    cases s
    simp [IVec2.add_def, EAST, WEST]

/-- A 2-by-2 board, grass everywhere, objects occupying both in-bounds rook
neighbors of the corner `(0, 0)`. -/
def blockedMap : VillageMap :=
  ⟨⟨2, 2⟩, [],
   ⟨⟨2, 2⟩, [(⟨0, 0⟩, 10), (⟨1, 0⟩, 11), (⟨0, 1⟩, 12), (⟨1, 1⟩, 13)]⟩,
   ⟨⟨2, 2⟩, [(⟨1, 0⟩, 1), (⟨0, 1⟩, 2)]⟩, []⟩

/-- C8 as stated fails: on `blockedMap` every in-bounds rook neighbor of the
target `(0, 0)` is occupied, yet starting from the occupied neighbor
`(1, 0)` itself, pathfind still finds the one-step path, because the start
cell is never tested for occupancy. -/
theorem C8_counterexample :
    (∀ d ∈ ROOK_MOVES, blockedMap.is_out_of_bounds (⟨0, 0⟩ + d) = false →
       blockedMap.object.get (⟨0, 0⟩ + d) ≠ none) ∧
    blockedMap.pathfind grassAllQ ⟨1, 0⟩ ⟨0, 0⟩ ROOK_MOVES false =
      some ([⟨1, 0⟩, ⟨0, 0⟩], 1) := by
  exact ⟨by decide, by decide⟩

/-- C8 amended: if every in-bounds rook neighbor of `target` is occupied in
the object index, and `start` is neither `target` itself nor one of its
rook neighbors, then pathfind with the rook move set returns `none`. -/
theorem C8_amended (m : VillageMap) (q : TerrainQ) (a : Bool)
    (start target : IVec2)
    (hocc : ∀ d ∈ ROOK_MOVES, m.is_out_of_bounds (target + d) = false →
       m.object.get (target + d) ≠ none)
    (hst : start ≠ target)
    (hsn : ∀ d ∈ ROOK_MOVES, start ≠ target + d) :
    m.pathfind q start target ROOK_MOVES a = none := by
  cases h : m.pathfind q start target ROOK_MOVES a with
  | none => rfl
  | some pc =>
    exfalso
    obtain ⟨p, c⟩ := pc
    obtain ⟨hhd, hlast, hch, -⟩ := pathfind_sound m q start target ROOK_MOVES a p c h
    have hlen : 2 ≤ p.length := by
      cases p with
      | nil => cases hhd
      | cons u tl =>
        cases tl with
        | nil =>
          have h1 : u = start := by simpa using hhd
          have h2 : u = target := by simpa using hlast
          exact absurd (h1 ▸ h2) hst
        | cons v tl2 => simp
    obtain ⟨x, y, ⟨k, hxy⟩, hlast', hx⟩ :=
      chain'_last_step (fun x y => ∃ k,
        (y, k) ∈ m.pathfindSuccessors q a ROOK_MOVES x) p hch hlen
    have hyt : y = target := by
      rw [hlast] at hlast'
      exact (Option.some.injEq .. ▸ hlast').symm
    rw [hyt] at hxy
    obtain ⟨-, ⟨d, hd, htd⟩, hpass⟩ :=
      (mem_pathfindSuccessors_iff m q a ROOK_MOVES x target k).mp hxy
    obtain ⟨d', hd', hinv⟩ := rook_neg d hd
    have hxn : x = target + d' := hinv x target htd
    rcases hx with hx | ⟨w, k', hwx⟩
    · have hxs : x = start := by
        rw [hhd] at hx
        exact (Option.some.injEq .. ▸ hx).symm
      exact hsn d' hd' (by rw [← hxs, hxn])
    · obtain ⟨-, -, hxpass⟩ :=
        (mem_pathfindSuccessors_iff m q a ROOK_MOVES w x k').mp hwx
      obtain ⟨hxb, hxnone, -⟩ := hxpass
      exact hocc d' hd' (by rw [← hxn]; exact hxb) (by rw [← hxn]; exact hxnone)

theorem C8_amended_witness :
    (∀ d ∈ ROOK_MOVES, blockedMap.is_out_of_bounds (⟨0, 0⟩ + d) = false →
       blockedMap.object.get (⟨0, 0⟩ + d) ≠ none) ∧
    (⟨1, 1⟩ : IVec2) ≠ ⟨0, 0⟩ ∧
    (∀ d ∈ ROOK_MOVES, (⟨1, 1⟩ : IVec2) ≠ ⟨0, 0⟩ + d) ∧
    blockedMap.pathfind grassAllQ ⟨1, 1⟩ ⟨0, 0⟩ ROOK_MOVES false = none :=
  ⟨by decide, by decide, by decide,
   C8_amended blockedMap grassAllQ false ⟨1, 1⟩ ⟨0, 0⟩ (by decide) (by decide)
     (by decide)⟩

/-- Stable insertion into a key-sorted list: the new element goes before
the first element whose key is at least as large, so elements inserted
earlier from the right keep their relative order on equal keys. -/
def insertKey {α : Type} (key : α → Int) (a : α) : List α → List α
  | [] => [a]
  | b :: l => if key a ≤ key b then a :: b :: l else b :: insertKey key a l

/-- Stable insertion sort by an integer key. Rust's `sort_by_key` is a
stable sort, and all stable sorts agree, so this models it exactly. -/
def sortByKey {α : Type} (key : α → Int) : List α → List α
  | [] => []
  | a :: l => insertKey key a (sortByKey key l)

theorem insertKey_perm {α : Type} (key : α → Int) (a : α) :
    ∀ l : List α, (insertKey key a l).Perm (a :: l) := by
  intro l
  induction l with
  | nil => exact List.Perm.refl _
  | cons b tl ih =>
    unfold insertKey
    by_cases hc : key a ≤ key b
    · rw [if_pos hc]
    · rw [if_neg hc]
      exact (List.Perm.cons b ih).trans (List.Perm.swap a b tl)

theorem sortByKey_perm {α : Type} (key : α → Int) :
    ∀ l : List α, (sortByKey key l).Perm l := by
  intro l
  induction l with
  | nil => exact List.Perm.refl _
  | cons a tl ih =>
    exact (insertKey_perm key a (sortByKey key tl)).trans (List.Perm.cons a ih)

theorem insertKey_pairwise {α : Type} (key : α → Int) (a : α) :
    ∀ l : List α, l.Pairwise (fun x y => key x ≤ key y) →
      (insertKey key a l).Pairwise (fun x y => key x ≤ key y) := by
  intro l
  induction l with
  | nil => intro _; exact List.pairwise_singleton _ _
  | cons b tl ih =>
    intro hp
    obtain ⟨hb, htl⟩ := List.pairwise_cons.mp hp
    unfold insertKey
    by_cases hc : key a ≤ key b
    · rw [if_pos hc]
      refine List.pairwise_cons.mpr ⟨?_, hp⟩
      intro t ht
      rcases List.mem_cons.mp ht with ht | ht
      · exact ht ▸ hc
      · exact le_trans hc (hb t ht)
    · rw [if_neg hc]
      refine List.pairwise_cons.mpr ⟨?_, ih htl⟩
      intro t ht
      have ht' : t ∈ a :: tl := (insertKey_perm key a tl).mem_iff.mp ht
      rcases List.mem_cons.mp ht' with ht' | ht'
      · exact ht' ▸ le_of_not_le hc
      · exact hb t ht'

theorem sortByKey_pairwise {α : Type} (key : α → Int) :
    ∀ l : List α, (sortByKey key l).Pairwise (fun x y => key x ≤ key y) := by
  intro l
  induction l with
  | nil => exact List.Pairwise.nil
  | cons a tl ih => exact insertKey_pairwise key a (sortByKey key tl) ih

/-- The head of a stable key-sort is the first element of the input
attaining the minimal key: it belongs to the input, its key is minimal, and
every element strictly before it in the input has a strictly larger key. -/
theorem head_sortByKey {α : Type} (key : α → Int) :
    ∀ (l : List α) (r : α), (sortByKey key l).head? = some r →
      r ∈ l ∧ (∀ t ∈ l, key r ≤ key t) ∧
      ∃ pre post, l = pre ++ r :: post ∧ ∀ t ∈ pre, key r < key t := by
  intro l
  induction l with
  | nil => intro r h; cases h
  | cons a tl ih =>
    intro r h
    show r ∈ a :: tl ∧ _
    cases hs : sortByKey key tl with
    | nil =>
      have htl : tl = [] := List.Perm.eq_nil (hs ▸ sortByKey_perm key tl).symm
      subst htl
      have hr : r = a := by
        unfold sortByKey at h
        rw [hs] at h
        simpa [insertKey] using h.symm
      subst hr
      refine ⟨List.mem_cons_self _ _, ?_, [], [], rfl, by simp⟩
      intro t ht
      rcases List.mem_cons.mp ht with ht | ht
      · exact ht ▸ le_refl _
      · cases ht
    | cons s ss =>
      have hsh : (sortByKey key tl).head? = some s := by rw [hs]; rfl
      obtain ⟨hsm, hsmin, pre', post', hdec, hpre'⟩ := ih s hsh
      unfold sortByKey at h
      rw [hs] at h
      unfold insertKey at h
      by_cases hc : key a ≤ key s
      · rw [if_pos hc] at h
        have hr : r = a := by simpa using h.symm
        subst hr
        refine ⟨List.mem_cons_self _ _, ?_, [], tl, rfl, by simp⟩
        intro t ht
        rcases List.mem_cons.mp ht with ht | ht
        · exact ht ▸ le_refl _
        · exact le_trans hc (hsmin t ht)
      · rw [if_neg hc] at h
        have hr : r = s := by simpa using h.symm
        subst hr
        refine ⟨List.mem_cons_of_mem _ hsm, ?_, a :: pre', post',
          by rw [hdec]; rfl, ?_⟩
        · intro t ht
          rcases List.mem_cons.mp ht with ht | ht
          · exact ht ▸ le_of_lt (lt_of_not_le hc)
          · exact hsmin t ht
        · intro t ht
          rcases List.mem_cons.mp ht with ht | ht
          · exact ht ▸ lt_of_not_le hc
          · exact hpre' t ht

/-- Embedding of `IVec2::distance_squared` (used in map.rs line 151), with
exact integer arithmetic. -/
def distance_squared (a b : IVec2) : Int :=
  (a.x - b.x) * (a.x - b.x) + (a.y - b.y) * (a.y - b.y)

/-- The unvisited sentinel `u32::MAX` (map.rs line 197). -/
def u32MAX : Nat := 4294967295

/-- The row-major heat index `x + y * (size.x as i32)` (map.rs lines 201,
213, 222). In Rust the sum is cast `as usize`; for in-bounds coordinates it
is non-negative, and the model truncates negatives to 0 via `Int.toNat`
(where Rust would panic on the huge wrapped index). -/
def heatIndex (m : VillageMap) (c : IVec2) : Nat :=
  (c.x + c.y * m.isize.x).toNat

/-- Embedding of `VillageMap::sort_tiles_by_distance` (map.rs lines
150-152): stable ascending sort by squared distance to the target tile.
Rust's `sort_by_key` is a stable sort and all stable sorts agree, so the
stable insertion sort models it exactly. -/
def sort_tiles_by_distance (tiles : List IVec2) (target_tile : IVec2) :
    List IVec2 :=
  sortByKey (fun t => distance_squared t target_tile) tiles

/-- The heat value read by `sort_tiles_by_heat` (map.rs lines 156-158):
`heat_map[t.x + t.y * size.x]`, with out-of-range reads (a Rust panic)
modelled as the default 0. -/
def VillageMap.heatAt (m : VillageMap) (t : IVec2) : Nat :=
  m.heat_map.getD (heatIndex m t) 0

/-- Embedding of `VillageMap::sort_tiles_by_heat` (map.rs lines 155-160):
stable ascending sort by looked-up heat value. -/
def VillageMap.sort_tiles_by_heat (m : VillageMap) (tiles : List IVec2) :
    List IVec2 :=
  sortByKey (fun t => (m.heatAt t : Int)) tiles

/-- Embedding of `VillageMap::get_best_tile` (map.rs lines 163-179): flood,
sort by distance to start, then stably sort by heat, and take the first
element. -/
def VillageMap.get_best_tile (m : VillageMap) (start : IVec2)
    (max_distance : Nat) (directions : List IVec2) (is_airborne : Bool)
    (q_terrains : TerrainQ) : Option IVec2 :=
  let tiles := m.flood start max_distance directions is_airborne q_terrains
  (m.sort_tiles_by_heat (sort_tiles_by_distance tiles start)).head?

/-- C6: `get_best_tile` returns a reachable cell of minimal heat, ties on
heat broken in favour of the smaller squared distance to `start`, and
returns `none` exactly when the reachable set is empty. -/
theorem C6_best_tile (m : VillageMap) (q : TerrainQ) (a : Bool)
    (dirs : List IVec2) (start : IVec2) (maxd : Nat) :
    (∀ r, m.get_best_tile start maxd dirs a q = some r →
       r ∈ m.flood start maxd dirs a q ∧
       (∀ t ∈ m.flood start maxd dirs a q, m.heatAt r ≤ m.heatAt t) ∧
       (∀ t ∈ m.flood start maxd dirs a q, m.heatAt t = m.heatAt r →
         distance_squared r start ≤ distance_squared t start)) ∧
    (m.get_best_tile start maxd dirs a q = none ↔
      m.flood start maxd dirs a q = []) := by
  set l0 := m.flood start maxd dirs a q with hl0
  set l1 := sort_tiles_by_distance l0 start with hl1
  have hperm1 : l1.Perm l0 := sortByKey_perm _ l0
  have hsort1 : l1.Pairwise
      (fun x y => distance_squared x start ≤ distance_squared y start) :=
    sortByKey_pairwise _ l0
  constructor
  · intro r h
    have h' : (sortByKey (fun t => (m.heatAt t : Int)) l1).head? = some r := h
    obtain ⟨hmem, hmin, pre, post, hdec, hpre⟩ :=
      head_sortByKey (fun t => (m.heatAt t : Int)) l1 r h'
    refine ⟨hperm1.mem_iff.mp hmem, ?_, ?_⟩
    · intro t ht
      have := hmin t (hperm1.mem_iff.mpr ht)
      exact_mod_cast this
    · intro t ht htr
      have htl1 : t ∈ l1 := hperm1.mem_iff.mpr ht
      rw [hdec] at htl1
      rcases List.mem_append.mp htl1 with htp | htp
      · exfalso
        have hlt := hpre t htp
        rw [htr] at hlt
        exact lt_irrefl _ hlt
      · rcases List.mem_cons.mp htp with htp | htp
        · exact htp ▸ le_refl _
        · have hp := hdec ▸ hsort1
          have hsplit := (List.pairwise_append.mp hp).2.1
          exact (List.pairwise_cons.mp hsplit).1 t htp
  · have hp2 : (m.sort_tiles_by_heat l1).Perm l0 :=
      (sortByKey_perm _ l1).trans hperm1
    constructor
    · intro h
      have h2 : m.sort_tiles_by_heat l1 = [] := by
        cases hc : m.sort_tiles_by_heat l1 with
        | nil => rfl
        | cons x xs =>
          have h' : (m.sort_tiles_by_heat l1).head? = none := h
          rw [hc] at h'
          cases h'
      exact List.Perm.eq_nil (h2 ▸ hp2).symm
    · intro h
      have h1 : l1 = [] := List.Perm.eq_nil (h ▸ hperm1)
      show (m.sort_tiles_by_heat l1).head? = none
      rw [h1]
      rfl

/-- One expansion of the four rook neighbours of a popped cell during heat
BFS (map.rs lines 216-231): skip out-of-bounds and already-visited cells;
otherwise record distance `curr_heat + 1` and enqueue. -/
def heatStep (m : VillageMap) (tile_coord : IVec2) (curr_heat : Nat)
    (acc : List Nat × List IVec2) (offset : IVec2) : List Nat × List IVec2 :=
  let flood_coord := tile_coord + offset
  if m.is_out_of_bounds flood_coord then acc
  else if acc.1.getD (heatIndex m flood_coord) 0 ≠ u32MAX then acc
  else (acc.1.set (heatIndex m flood_coord) (curr_heat + 1),
    acc.2 ++ [flood_coord])

def heatNeighbors (m : VillageMap) (tile_coord : IVec2) (curr_heat : Nat)
    (st : List Nat × List IVec2) : List Nat × List IVec2 :=
  ROOK_MOVES.foldl (heatStep m tile_coord curr_heat) st

/-- The heat BFS main loop (map.rs lines 212-232): pop the front of the
FIFO queue and expand its rook neighbours. The fuel bounds the number of
pops and is chosen by the caller so that the queue always empties first. -/
def heatBFS (m : VillageMap) : Nat → List IVec2 → List Nat → List Nat
  | 0, _, h => h
  | _ + 1, [], h => h
  | fuel + 1, tile_coord :: queue, h =>
      let curr_heat := h.getD (heatIndex m tile_coord) 0
      let st := heatNeighbors m tile_coord curr_heat (h, queue)
      heatBFS m fuel st.2 st.1

/-- Embedding of `VillageMap::generate_heat_map` (map.rs lines 195-233):
fill with the unvisited sentinel, seed every object position with 0 onto
the queue, fill with 0 instead when there are no objects, and otherwise run
the FIFO BFS. -/
def VillageMap.generate_heat_map (m : VillageMap) : VillageMap :=
  let n : Nat := m.size.x * m.size.y
  let sources := m.object.pairs.map Prod.fst
  let seeded := sources.foldl (fun h c => h.set (heatIndex m c) 0)
    (List.replicate n u32MAX)
  if sources.isEmpty then { m with heat_map := List.replicate n 0 }
  else { m with heat_map := heatBFS m (sources.length + n) sources seeded }

/-- C10: `generate_heat_map` only rewrites the `heat_map` field; the size,
both indices and the deployment zone are untouched. -/
theorem C10_generate_heat_map_frame (m : VillageMap) :
    m.generate_heat_map.size = m.size ∧
    m.generate_heat_map.terrain = m.terrain ∧
    m.generate_heat_map.object = m.object ∧
    m.generate_heat_map.deployment_zone = m.deployment_zone := by
  unfold VillageMap.generate_heat_map
  by_cases h : (m.object.pairs.map Prod.fst).isEmpty <;> simp [h]

/-- Well-formedness of the board size for the heat-map analysis: both
components positive, representable as positive `i32`, and a cell count
below the `u32::MAX` sentinel. -/
def VillageMap.SizeOk (m : VillageMap) : Prop :=
  0 < m.size.x ∧ 0 < m.size.y ∧ m.size.x < 2 ^ 31 ∧ m.size.y < 2 ^ 31 ∧
    m.size.x * m.size.y < u32MAX

instance (m : VillageMap) : Decidable m.SizeOk := by
  unfold VillageMap.SizeOk
  infer_instance

theorem u32_as_i32_small {v : Nat} (h : v < 2 ^ 31) : u32_as_i32 v = (v : Int) := by
  have h1 : v % 2 ^ 32 = v := Nat.mod_eq_of_lt (by omega)
  simp only [u32_as_i32, h1]
  rw [if_pos h]

theorem isize_x_eq (m : VillageMap) (hok : m.SizeOk) :
    m.isize.x = (m.size.x : Int) :=
  u32_as_i32_small hok.2.2.1

theorem isize_y_eq (m : VillageMap) (hok : m.SizeOk) :
    m.isize.y = (m.size.y : Int) :=
  u32_as_i32_small hok.2.2.2.1

theorem out_of_bounds_false_iff (m : VillageMap) (c : IVec2) :
    m.is_out_of_bounds c = false ↔
      0 ≤ c.x ∧ 0 ≤ c.y ∧ c.x < m.isize.x ∧ c.y < m.isize.y := by
  unfold VillageMap.is_out_of_bounds
  simp only [Bool.or_eq_false_iff, decide_eq_false_iff_not, not_lt, not_le]
  constructor
  · rintro ⟨⟨h1, h2⟩, h3, h4⟩
    exact ⟨h1, h2, h3, h4⟩
  · rintro ⟨h1, h2, h3, h4⟩
    exact ⟨⟨h1, h2⟩, h3, h4⟩

/-- Coordinate bookkeeping for an in-bounds cell: non-negative components,
natural coordinates below the size, and the heat index written in natural
row-major form. -/
theorem inb_coords (m : VillageMap) (hok : m.SizeOk) (c : IVec2)
    (hc : m.is_out_of_bounds c = false) :
    0 ≤ c.x ∧ 0 ≤ c.y ∧ c.x.toNat < m.size.x ∧ c.y.toNat < m.size.y ∧
      heatIndex m c = c.x.toNat + c.y.toNat * m.size.x := by
  obtain ⟨h1, h2, h3, h4⟩ := (out_of_bounds_false_iff m c).mp hc
  rw [isize_x_eq m hok] at h3
  rw [isize_y_eq m hok] at h4
  refine ⟨h1, h2, by omega, by omega, ?_⟩
  unfold heatIndex
  rw [isize_x_eq m hok]
  have hx' : (c.x.toNat : Int) = c.x := Int.toNat_of_nonneg h1
  have hy' : (c.y.toNat : Int) = c.y := Int.toNat_of_nonneg h2
  have hsum : c.x + c.y * (m.size.x : Int)
      = ((c.x.toNat + c.y.toNat * m.size.x : Nat) : Int) := by
    push_cast
    rw [hx', hy']
  rw [hsum, Int.toNat_natCast]

theorem heatIndex_lt (m : VillageMap) (hok : m.SizeOk) (c : IVec2)
    (hc : m.is_out_of_bounds c = false) :
    heatIndex m c < m.size.x * m.size.y := by
  obtain ⟨-, -, hx, hy, hidx⟩ := inb_coords m hok c hc
  rw [hidx]
  calc c.x.toNat + c.y.toNat * m.size.x
      < m.size.x + c.y.toNat * m.size.x := by omega
    _ = (c.y.toNat + 1) * m.size.x := by ring
    _ ≤ m.size.y * m.size.x := Nat.mul_le_mul_right _ (by omega)
    _ = m.size.x * m.size.y := Nat.mul_comm _ _

theorem heatIndex_inj (m : VillageMap) (hok : m.SizeOk) (c c' : IVec2)
    (hc : m.is_out_of_bounds c = false) (hc' : m.is_out_of_bounds c' = false)
    (h : heatIndex m c = heatIndex m c') : c = c' := by
  obtain ⟨h1, h2, hx, hy, hidx⟩ := inb_coords m hok c hc
  obtain ⟨h1', h2', hx', hy', hidx'⟩ := inb_coords m hok c' hc'
  rw [hidx, hidx'] at h
  have hw : 0 < m.size.x := hok.1
  have hmodx : (c.x.toNat + c.y.toNat * m.size.x) % m.size.x = c.x.toNat := by
    rw [Nat.add_mul_mod_self_right]
    exact Nat.mod_eq_of_lt hx
  have hmodx' : (c'.x.toNat + c'.y.toNat * m.size.x) % m.size.x = c'.x.toNat := by
    rw [Nat.add_mul_mod_self_right]
    exact Nat.mod_eq_of_lt hx'
  have hxeq : c.x.toNat = c'.x.toNat := by
    rw [← hmodx, ← hmodx', h]
  have hyeq : c.y.toNat = c'.y.toNat := by
    have hd : (c.x.toNat + c.y.toNat * m.size.x) / m.size.x
        = (c'.x.toNat + c'.y.toNat * m.size.x) / m.size.x := by rw [h]
    rw [Nat.add_mul_div_right _ _ hw, Nat.add_mul_div_right _ _ hw,
      Nat.div_eq_of_lt hx, Nat.div_eq_of_lt hx'] at hd
    omega
  have : c.x = c'.x := by omega
  have : c.y = c'.y := by omega
  cases c
  cases c'
  simp_all

/-- Rook reachability through in-bounds cells in at most `n` steps. -/
def RookWithin (m : VillageMap) : Nat → IVec2 → IVec2 → Prop
  | 0, a, b => b = a
  | n + 1, a, b => RookWithin m n a b ∨
      ∃ c, RookWithin m n a c ∧ (∃ off ∈ ROOK_MOVES, b = c + off) ∧
        m.is_out_of_bounds b = false

theorem rookWithin_mono (m : VillageMap) {j k : Nat} (h : j ≤ k)
    {a b : IVec2} (hr : RookWithin m j a b) : RookWithin m k a b := by
  induction k with
  | zero =>
    have : j = 0 := by omega
    subst this
    exact hr
  | succ k ih =>
    by_cases hj : j = k + 1
    · subst hj
      exact hr
    · exact Or.inl (ih (by omega))

/-- Existence of at most `n` occupied... shortest distance to the nearest
listed source: attained within `k` steps and minimal. -/
def SrcWithin (m : VillageMap) (sources : List IVec2) (k : Nat)
    (c : IVec2) : Prop :=
  ∃ s ∈ sources, RookWithin m k s c

/-- The code's heat value specification: `k` is the exact shortest rook
distance from `c` to the nearest source. -/
def SrcDistEq (m : VillageMap) (sources : List IVec2) (c : IVec2)
    (k : Nat) : Prop :=
  SrcWithin m sources k c ∧ ∀ j, SrcWithin m sources j c → k ≤ j

theorem srcWithin_mono (m : VillageMap) (sources : List IVec2)
    {j k : Nat} (h : j ≤ k) {c : IVec2} (hs : SrcWithin m sources j c) :
    SrcWithin m sources k c := by
  obtain ⟨s, hmem, hr⟩ := hs
  exact ⟨s, hmem, rookWithin_mono m h hr⟩

/-- Connectivity of the in-bounds grid: any in-bounds cell is rook-reachable
from any other through in-bounds cells, within the L1 distance. -/
theorem rook_connect (m : VillageMap) :
    ∀ (t : Nat) (a b : IVec2), m.is_out_of_bounds a = false →
      m.is_out_of_bounds b = false →
      (a.x - b.x).natAbs + (a.y - b.y).natAbs ≤ t →
      RookWithin m t a b := by
  intro t
  induction t with
  | zero =>
    intro a b _ _ hd
    have hx : a.x = b.x := by omega
    have hy : a.y = b.y := by omega
    show b = a
    cases a
    cases b
    simp_all
  | succ t ih =>
    intro a b ha hb hd
    by_cases hxy : a.x = b.x ∧ a.y = b.y
    · apply rookWithin_mono m (Nat.zero_le (t + 1))
      show b = a
      cases a
      cases b
      simp_all
    · obtain ⟨ha1, ha2, ha3, ha4⟩ := (out_of_bounds_false_iff m a).mp ha
      obtain ⟨hb1, hb2, hb3, hb4⟩ := (out_of_bounds_false_iff m b).mp hb
      by_cases hx : a.x = b.x
      · have hy : a.y ≠ b.y := fun hc => hxy ⟨hx, hc⟩
        by_cases hlt : a.y < b.y
        · refine Or.inr ⟨⟨b.x, b.y - 1⟩, ih a _ ha ?_ ?_, ⟨SOUTH, by decide, ?_⟩, hb⟩
          · rw [out_of_bounds_false_iff]
            refine ⟨hb1, show (0 : Int) ≤ b.y - 1 by omega, hb3,
              show b.y - 1 < m.isize.y by omega⟩
          · show (a.x - b.x).natAbs + (a.y - (b.y - 1)).natAbs ≤ t
            omega
          · show b = ⟨b.x + 0, b.y - 1 + 1⟩
            cases b
            simp only [IVec2.mk.injEq]
            omega
        · refine Or.inr ⟨⟨b.x, b.y + 1⟩, ih a _ ha ?_ ?_, ⟨NORTH, by decide, ?_⟩, hb⟩
          · rw [out_of_bounds_false_iff]
            refine ⟨hb1, show (0 : Int) ≤ b.y + 1 by omega, hb3,
              show b.y + 1 < m.isize.y by omega⟩
          · show (a.x - b.x).natAbs + (a.y - (b.y + 1)).natAbs ≤ t
            omega
          · show b = ⟨b.x + 0, b.y + 1 + -1⟩
            cases b
            simp only [IVec2.mk.injEq]
            omega
      · by_cases hlt : a.x < b.x
        · refine Or.inr ⟨⟨b.x - 1, b.y⟩, ih a _ ha ?_ ?_, ⟨EAST, by decide, ?_⟩, hb⟩
          · rw [out_of_bounds_false_iff]
            refine ⟨show (0 : Int) ≤ b.x - 1 by omega, hb2,
              show b.x - 1 < m.isize.x by omega, hb4⟩
          · show (a.x - (b.x - 1)).natAbs + (a.y - b.y).natAbs ≤ t
            omega
          · show b = ⟨b.x - 1 + 1, b.y + 0⟩
            cases b
            simp only [IVec2.mk.injEq]
            omega
        · refine Or.inr ⟨⟨b.x + 1, b.y⟩, ih a _ ha ?_ ?_, ⟨WEST, by decide, ?_⟩, hb⟩
          · rw [out_of_bounds_false_iff]
            refine ⟨show (0 : Int) ≤ b.x + 1 by omega, hb2,
              show b.x + 1 < m.isize.x by omega, hb4⟩
          · show (a.x - (b.x + 1)).natAbs + (a.y - b.y).natAbs ≤ t
            omega
          · show b = ⟨b.x + 1 + -1, b.y + 0⟩
            cases b
            simp only [IVec2.mk.injEq]
            omega

/-- The heat value of cell `c` in heat vector `h` (the model of
`heat_map[index]`). -/
def hval (m : VillageMap) (h : List Nat) (c : IVec2) : Nat :=
  h.getD (heatIndex m c) 0

/-- Any exact source distance of an in-bounds cell is below the cell
count. -/
theorem srcDistEq_lt (m : VillageMap) (hok : m.SizeOk)
    (sources : List IVec2) (c : IVec2) (k : Nat)
    (hsrc : ∀ p ∈ sources, m.is_out_of_bounds p = false)
    (hc : m.is_out_of_bounds c = false)
    (hd : SrcDistEq m sources c k) :
    k < m.size.x * m.size.y := by
  obtain ⟨⟨s, hsm, -⟩, hmin⟩ := hd
  have hsInB := hsrc s hsm
  have hreach : RookWithin m ((s.x - c.x).natAbs + (s.y - c.y).natAbs) s c :=
    rook_connect m _ s c hsInB hc (le_refl _)
  have hk : k ≤ (s.x - c.x).natAbs + (s.y - c.y).natAbs :=
    hmin _ ⟨s, hsm, hreach⟩
  obtain ⟨hs1, hs2, hs3, hs4⟩ := (out_of_bounds_false_iff m s).mp hsInB
  obtain ⟨hc1, hc2, hc3, hc4⟩ := (out_of_bounds_false_iff m c).mp hc
  rw [isize_x_eq m hok] at hs3 hc3
  rw [isize_y_eq m hok] at hs4 hc4
  obtain ⟨a, ha⟩ : ∃ a, m.size.x = a + 1 := ⟨m.size.x - 1, by omega⟩
  obtain ⟨b, hb⟩ : ∃ b, m.size.y = b + 1 := ⟨m.size.y - 1, by omega⟩
  have hbound : (s.x - c.x).natAbs + (s.y - c.y).natAbs ≤ a + b := by omega
  have hprod : (a + 1) * (b + 1) = a * b + a + b + 1 := by ring
  have hlast : a + b < (a + 1) * (b + 1) := by
    rw [hprod]
    have h5 : a * b + a + b + 1 = (a + b) + (a * b + 1) := by ring
    rw [h5]
    exact Nat.lt_add_of_pos_right (Nat.succ_pos _)
  rw [ha, hb]
  omega

theorem hval_set_self (m : VillageMap) (hok : m.SizeOk) (h : List Nat)
    (c : IVec2) (hc : m.is_out_of_bounds c = false)
    (hlen : h.length = m.size.x * m.size.y) (v : Nat) :
    hval m (h.set (heatIndex m c) v) c = v := by
  unfold hval
  rw [List.getD_eq_getElem?_getD, List.getElem?_set_self
    (by rw [hlen]; exact heatIndex_lt m hok c hc)]
  rfl

theorem hval_set_other (m : VillageMap) (hok : m.SizeOk) (h : List Nat)
    (c c' : IVec2) (hc : m.is_out_of_bounds c = false)
    (hc' : m.is_out_of_bounds c' = false) (hne : c' ≠ c) (v : Nat) :
    hval m (h.set (heatIndex m c) v) c' = hval m h c' := by
  unfold hval
  rw [List.getD_eq_getElem?_getD, List.getD_eq_getElem?_getD,
    List.getElem?_set_ne]
  intro hidx
  exact hne (heatIndex_inj m hok c' c hc' hc hidx.symm)

theorem count_set_dec (h : List Nat) (i v : Nat) (hi : i < h.length)
    (hold : h.getD i 0 = u32MAX) (hv : v ≠ u32MAX) :
    (h.set i v).count u32MAX + 1 = h.count u32MAX := by
  induction h generalizing i with
  | nil => simp at hi
  | cons a tl ih =>
    cases i with
    | zero =>
      have ha : a = u32MAX := by simpa using hold
      subst ha
      simp [List.count_cons, hv]
    | succ j =>
      have hj : j < tl.length := by simpa using hi
      have hold' : tl.getD j 0 = u32MAX := by simpa using hold
      have := ih j hj hold'
      simp only [List.set_cons_succ, List.count_cons]
      omega

theorem length_foldl_set (m : VillageMap) :
    ∀ (srcs : List IVec2) (h0 : List Nat),
      (srcs.foldl (fun h c => h.set (heatIndex m c) 0) h0).length =
        h0.length := by
  intro srcs
  induction srcs with
  | nil => intro h0; rfl
  | cons s rest ih =>
    intro h0
    show (rest.foldl _ (h0.set (heatIndex m s) 0)).length = h0.length
    rw [ih (h0.set (heatIndex m s) 0), List.length_set]

/-- After seeding, an in-bounds cell holds 0 when it is a listed source and
keeps its previous value otherwise. -/
theorem hval_seed (m : VillageMap) (hok : m.SizeOk) :
    ∀ (srcs : List IVec2) (h0 : List Nat),
      h0.length = m.size.x * m.size.y →
      (∀ p ∈ srcs, m.is_out_of_bounds p = false) →
      ∀ c, m.is_out_of_bounds c = false →
        hval m (srcs.foldl (fun h p => h.set (heatIndex m p) 0) h0) c =
          if c ∈ srcs then 0 else hval m h0 c := by
  intro srcs
  induction srcs with
  | nil =>
    intro h0 _ _ c _
    simp
  | cons s rest ih =>
    intro h0 hlen hinb c hc
    have hsInB := hinb s (List.mem_cons_self _ _)
    have hrest : ∀ p ∈ rest, m.is_out_of_bounds p = false :=
      fun p hp => hinb p (List.mem_cons_of_mem _ hp)
    have hlen' : (h0.set (heatIndex m s) 0).length = m.size.x * m.size.y := by
      rw [List.length_set, hlen]
    have := ih (h0.set (heatIndex m s) 0) hlen' hrest c hc
    show hval m (rest.foldl _ (h0.set (heatIndex m s) 0)) c = _
    rw [this]
    by_cases hcr : c ∈ rest
    · simp [hcr, List.mem_cons]
    · by_cases hcs : c = s
      · subst hcs
        simp [hcr, hval_set_self m hok h0 c hc hlen]
      · have h2 := hval_set_other m hok h0 s c hsInB hc hcs 0
        rw [h2]
        simp [hcr, hcs]

/-- The loop invariant of the heat BFS: values of visited cells are exact
source distances, queue entries are visited and in bounds with sorted
values spreading by at most one, sources are visited, and any visited cell
outside the queue has all its in-bounds rook neighbours visited. -/
structure HeatInv (m : VillageMap) (sources : List IVec2)
    (q : List IVec2) (h : List Nat) : Prop where
  len : h.length = m.size.x * m.size.y
  dist : ∀ c, m.is_out_of_bounds c = false → hval m h c ≠ u32MAX →
    SrcDistEq m sources c (hval m h c)
  qmem : ∀ c ∈ q, m.is_out_of_bounds c = false ∧ hval m h c ≠ u32MAX
  sorted : List.Pairwise (fun a b => hval m h a ≤ hval m h b) q
  qspread : ∀ a ∈ q, ∀ b ∈ q, hval m h a ≤ hval m h b + 1
  srcvis : ∀ s ∈ sources, m.is_out_of_bounds s = false ∧ hval m h s ≠ u32MAX
  closed : ∀ z, m.is_out_of_bounds z = false → hval m h z ≠ u32MAX → z ∉ q →
    ∀ off ∈ ROOK_MOVES, m.is_out_of_bounds (z + off) = false →
      hval m h (z + off) ≠ u32MAX

/-- The invariant holding while the four rook offsets of the popped cell
`c` (of value `d`) are processed one by one; `offs` are the offsets still
to process. -/
structure MidInv (m : VillageMap) (sources : List IVec2) (c : IVec2) (d : Nat)
    (offs : List IVec2) (q1 : List IVec2) (h1 : List Nat) : Prop where
  len : h1.length = m.size.x * m.size.y
  dist : ∀ z, m.is_out_of_bounds z = false → hval m h1 z ≠ u32MAX →
    SrcDistEq m sources z (hval m h1 z)
  qmem : ∀ z ∈ q1, m.is_out_of_bounds z = false ∧ hval m h1 z ≠ u32MAX
  sorted : List.Pairwise (fun a b => hval m h1 a ≤ hval m h1 b) q1
  qrange : ∀ x ∈ q1, d ≤ hval m h1 x ∧ hval m h1 x ≤ d + 1
  srcvis : ∀ s ∈ sources, m.is_out_of_bounds s = false ∧ hval m h1 s ≠ u32MAX
  closedA : ∀ z, m.is_out_of_bounds z = false → hval m h1 z ≠ u32MAX →
    z ≠ c → z ∉ q1 →
    ∀ off ∈ ROOK_MOVES, m.is_out_of_bounds (z + off) = false →
      hval m h1 (z + off) ≠ u32MAX
  closedC : ∀ off ∈ ROOK_MOVES, off ∉ offs →
    m.is_out_of_bounds (c + off) = false → hval m h1 (c + off) ≠ u32MAX
  cinb : m.is_out_of_bounds c = false
  cval : hval m h1 c = d

theorem rookWithin_endpoint (m : VillageMap) :
    ∀ (k : Nat) (s u : IVec2), RookWithin m k s u →
      u = s ∨ m.is_out_of_bounds u = false := by
  intro k
  induction k with
  | zero => intro s u h; exact Or.inl h
  | succ k ih =>
    intro s u h
    rcases h with h | ⟨v, -, -, hb⟩
    · exact ih s u h
    · exact Or.inr hb

theorem rook_add_ne : ∀ off ∈ ROOK_MOVES, ∀ c : IVec2, c + off ≠ c := by
  intro off hoff c hc
  have hx : c.x + off.x = c.x := congrArg IVec2.x hc
  have hy : c.y + off.y = c.y := congrArg IVec2.y hc
  fin_cases hoff <;> simp_all [NORTH, EAST, SOUTH, WEST]

/-- If some source reaches an unvisited cell within `k` steps, then some
visited cell of value below `k` has an unvisited in-bounds rook
neighbour. -/
theorem frontier_crossing (m : VillageMap) (sources : List IVec2)
    (h1 : List Nat)
    (hsvis : ∀ s ∈ sources, m.is_out_of_bounds s = false ∧
      hval m h1 s ≠ u32MAX)
    (hdist : ∀ z, m.is_out_of_bounds z = false → hval m h1 z ≠ u32MAX →
      SrcDistEq m sources z (hval m h1 z)) :
    ∀ (k : Nat) (s u : IVec2), s ∈ sources → RookWithin m k s u →
      hval m h1 u = u32MAX →
      ∃ z off2, m.is_out_of_bounds z = false ∧ hval m h1 z ≠ u32MAX ∧
        hval m h1 z < k ∧ off2 ∈ ROOK_MOVES ∧
        m.is_out_of_bounds (z + off2) = false ∧
        hval m h1 (z + off2) = u32MAX := by
  intro k
  induction k with
  | zero =>
    intro s u hs hr hu
    have : u = s := hr
    subst this
    exact absurd hu (hsvis u hs).2
  | succ k ih =>
    intro s u hs hr hu
    rcases hr with hr | ⟨v, hv, ⟨off2, hoffm, rfl⟩, hub⟩
    · obtain ⟨z, o, h1', h2', h3', h4', h5', h6'⟩ := ih s u hs hr hu
      exact ⟨z, o, h1', h2', by omega, h4', h5', h6'⟩
    · have hvInB : m.is_out_of_bounds v = false := by
        rcases rookWithin_endpoint m k s v hv with hv' | hv'
        · exact hv' ▸ (hsvis s hs).1
        · exact hv'
      by_cases hvvis : hval m h1 v = u32MAX
      · obtain ⟨z, o, h1', h2', h3', h4', h5', h6'⟩ := ih s v hs hv hvvis
        exact ⟨z, o, h1', h2', by omega, h4', h5', h6'⟩
      · refine ⟨v, off2, hvInB, hvvis, ?_, hoffm, hub, hu⟩
        have hde := hdist v hvInB hvvis
        have hle : hval m h1 v ≤ k := hde.2 k ⟨s, hs, hv⟩
        omega

/-- Processing a single offset preserves the mid-step invariant and the
termination measure (queue length plus unvisited count). -/
theorem midInv_step (m : VillageMap) (hok : m.SizeOk)
    (sources : List IVec2) (c : IVec2) (d : Nat) (off : IVec2)
    (offs' : List IVec2) (hoff : off ∈ ROOK_MOVES) (hdlt : d + 1 < u32MAX)
    (q1 : List IVec2) (h1 : List Nat)
    (hmi : MidInv m sources c d (off :: offs') q1 h1) :
    MidInv m sources c d offs' (heatStep m c d (h1, q1) off).2
        (heatStep m c d (h1, q1) off).1 ∧
      (heatStep m c d (h1, q1) off).2.length +
        (heatStep m c d (h1, q1) off).1.count u32MAX =
        q1.length + h1.count u32MAX := by
  simp only [heatStep]
  by_cases hbnd : m.is_out_of_bounds (c + off) = true
  · rw [if_pos hbnd]
    refine ⟨⟨hmi.len, hmi.dist, hmi.qmem, hmi.sorted, hmi.qrange,
      hmi.srcvis, hmi.closedA, ?_, hmi.cinb, hmi.cval⟩, rfl⟩
    intro off2 hm2 hnin2 hinb2
    by_cases heq : off2 = off
    · subst heq
      rw [hinb2] at hbnd
      cases hbnd
    · refine hmi.closedC off2 hm2 ?_ hinb2
      intro hmem
      rcases List.mem_cons.mp hmem with h | h
      · exact heq h
      · exact hnin2 h
  · have hubInB : m.is_out_of_bounds (c + off) = false := by simpa using hbnd
    rw [if_neg hbnd]
    by_cases hvis : h1.getD (heatIndex m (c + off)) 0 ≠ u32MAX
    · rw [if_pos hvis]
      refine ⟨⟨hmi.len, hmi.dist, hmi.qmem, hmi.sorted, hmi.qrange,
        hmi.srcvis, hmi.closedA, ?_, hmi.cinb, hmi.cval⟩, rfl⟩
      intro off2 hm2 hnin2 hinb2
      by_cases heq : off2 = off
      · subst heq
        exact hvis
      · refine hmi.closedC off2 hm2 ?_ hinb2
        intro hmem
        rcases List.mem_cons.mp hmem with h | h
        · exact heq h
        · exact hnin2 h
    · have hu : hval m h1 (c + off) = u32MAX := not_not.mp hvis
      rw [if_neg hvis]
      have hlen2 : (h1.set (heatIndex m (c + off)) (d + 1)).length =
          m.size.x * m.size.y := by
        rw [List.length_set, hmi.len]
      have hvalu : hval m (h1.set (heatIndex m (c + off)) (d + 1)) (c + off) =
          d + 1 :=
        hval_set_self m hok h1 (c + off) hubInB hmi.len (d + 1)
      have hvalo : ∀ z, m.is_out_of_bounds z = false → z ≠ c + off →
          hval m (h1.set (heatIndex m (c + off)) (d + 1)) z = hval m h1 z :=
        fun z hz hne => hval_set_other m hok h1 (c + off) z hubInB hz hne (d + 1)
      have hmono : ∀ z, m.is_out_of_bounds z = false → hval m h1 z ≠ u32MAX →
          hval m (h1.set (heatIndex m (c + off)) (d + 1)) z ≠ u32MAX ∧
            hval m (h1.set (heatIndex m (c + off)) (d + 1)) z = hval m h1 z := by
        intro z hz hv
        have hne : z ≠ c + off := by
          intro he
          rw [he] at hv
          exact hv hu
        exact ⟨by rw [hvalo z hz hne]; exact hv, hvalo z hz hne⟩
      have hcvis : hval m h1 c ≠ u32MAX := by
        rw [hmi.cval]
        omega
      have hdistu : SrcDistEq m sources (c + off) (d + 1) := by
        have hdc := hmi.dist c hmi.cinb hcvis
        rw [hmi.cval] at hdc
        obtain ⟨⟨s, hsm, hrw⟩, -⟩ := hdc
        constructor
        · exact ⟨s, hsm, Or.inr ⟨c, hrw, ⟨off, hoff, rfl⟩, hubInB⟩⟩
        · intro j hj
          by_contra hlt
          push_neg at hlt
          have hjd : SrcWithin m sources d (c + off) :=
            srcWithin_mono m sources (by omega) hj
          obtain ⟨s', hs', hrw'⟩ := hjd
          obtain ⟨z, off2, hz1, hz2, hz3, hz4, hz5, hz6⟩ :=
            frontier_crossing m sources h1 hmi.srcvis hmi.dist d s' (c + off)
              hs' hrw' hu
          by_cases hzc : z = c
          · subst hzc
            rw [hmi.cval] at hz3
            omega
          · by_cases hzq : z ∈ q1
            · have := (hmi.qrange z hzq).1
              omega
            · exact hmi.closedA z hz1 hz2 hzc hzq off2 hz4 hz5 hz6
      refine ⟨⟨hlen2, ?_, ?_, ?_, ?_, ?_, ?_, ?_, hmi.cinb, ?_⟩, ?_⟩
      · intro z hz hv2
        by_cases hne : z = c + off
        · subst hne
          rw [hvalu]
          exact hdistu
        · rw [hvalo z hz hne] at hv2 ⊢
          exact hmi.dist z hz hv2
      · intro z hz
        rcases List.mem_append.mp hz with hz | hz
        · obtain ⟨hzi, hzv⟩ := hmi.qmem z hz
          exact ⟨hzi, (hmono z hzi hzv).1⟩
        · rw [List.mem_singleton] at hz
          subst hz
          refine ⟨hubInB, ?_⟩
          rw [hvalu]
          omega
      · rw [List.pairwise_append]
        refine ⟨?_, List.pairwise_singleton _ _, ?_⟩
        · refine List.Pairwise.imp_of_mem ?_ hmi.sorted
          intro a b ha hb hab
          rw [(hmono a (hmi.qmem a ha).1 (hmi.qmem a ha).2).2,
            (hmono b (hmi.qmem b hb).1 (hmi.qmem b hb).2).2]
          exact hab
        · intro a ha b hb
          rw [List.mem_singleton] at hb
          subst hb
          rw [hvalu, (hmono a (hmi.qmem a ha).1 (hmi.qmem a ha).2).2]
          exact (hmi.qrange a ha).2
      · intro x hx
        rcases List.mem_append.mp hx with hx | hx
        · rw [(hmono x (hmi.qmem x hx).1 (hmi.qmem x hx).2).2]
          exact hmi.qrange x hx
        · rw [List.mem_singleton] at hx
          subst hx
          rw [hvalu]
          omega
      · intro s hs
        obtain ⟨h1s, h2s⟩ := hmi.srcvis s hs
        exact ⟨h1s, (hmono s h1s h2s).1⟩
      · intro z hz hv2 hzc hzq off2 hm2 hb2
        have hzq1 : z ∉ q1 := fun hq => hzq (List.mem_append.mpr (Or.inl hq))
        have hzu : z ≠ c + off := by
          intro he
          exact hzq (List.mem_append.mpr (Or.inr (by
            rw [he]
            exact List.mem_singleton.mpr rfl)))
        rw [hvalo z hz hzu] at hv2
        have hold := hmi.closedA z hz hv2 hzc hzq1 off2 hm2 hb2
        by_cases hne2 : z + off2 = c + off
        · rw [hne2, hvalu]
          omega
        · rw [hvalo _ hb2 hne2]
          exact hold
      · intro off2 hm2 hnin2 hb2
        by_cases heq : off2 = off
        · subst heq
          rw [hvalu]
          omega
        · have hold := hmi.closedC off2 hm2 (by
            intro hmem
            rcases List.mem_cons.mp hmem with h | h
            · exact heq h
            · exact hnin2 h) hb2
          by_cases hne2 : c + off2 = c + off
          · rw [hne2, hvalu]
            omega
          · rw [hvalo _ hb2 hne2]
            exact hold
      · have hcu : c ≠ c + off := fun he => rook_add_ne off hoff c he.symm
        rw [hvalo c hmi.cinb hcu]
        exact hmi.cval
      · rw [List.length_append]
        have hcnt := count_set_dec h1 (heatIndex m (c + off)) (d + 1)
          (by rw [hmi.len]; exact heatIndex_lt m hok (c + off) hubInB) hu
          (by omega)
        simp only [List.length_singleton]
        omega

theorem midInv_fold (m : VillageMap) (hok : m.SizeOk) (sources : List IVec2)
    (c : IVec2) (d : Nat) (hdlt : d + 1 < u32MAX) :
    ∀ (offs : List IVec2), (∀ o ∈ offs, o ∈ ROOK_MOVES) →
      ∀ (q1 : List IVec2) (h1 : List Nat),
        MidInv m sources c d offs q1 h1 →
        MidInv m sources c d [] (offs.foldl (heatStep m c d) (h1, q1)).2
            (offs.foldl (heatStep m c d) (h1, q1)).1 ∧
          (offs.foldl (heatStep m c d) (h1, q1)).2.length +
            (offs.foldl (heatStep m c d) (h1, q1)).1.count u32MAX =
            q1.length + h1.count u32MAX := by
  intro offs
  induction offs with
  | nil =>
    intro _ q1 h1 hmi
    exact ⟨hmi, rfl⟩
  | cons off rest ih =>
    intro hsub q1 h1 hmi
    have hoff : off ∈ ROOK_MOVES := hsub off (List.mem_cons_self _ _)
    obtain ⟨hmi', hmeas⟩ :=
      midInv_step m hok sources c d off rest hoff hdlt q1 h1 hmi
    have hrest : ∀ o ∈ rest, o ∈ ROOK_MOVES :=
      fun o ho => hsub o (List.mem_cons_of_mem _ ho)
    obtain ⟨hmi'', hmeas'⟩ := ih hrest (heatStep m c d (h1, q1) off).2
      (heatStep m c d (h1, q1) off).1 hmi'
    rw [Prod.mk.eta] at hmi'' hmeas'
    rw [List.foldl_cons]
    exact ⟨hmi'', by omega⟩

theorem heatInv_pop (m : VillageMap) (hok : m.SizeOk) (sources : List IVec2)
    (hsrc : ∀ p ∈ sources, m.is_out_of_bounds p = false)
    (c : IVec2) (rest : List IVec2) (h : List Nat)
    (hinv : HeatInv m sources (c :: rest) h) :
    HeatInv m sources (heatNeighbors m c (hval m h c) (h, rest)).2
        (heatNeighbors m c (hval m h c) (h, rest)).1 ∧
      (heatNeighbors m c (hval m h c) (h, rest)).2.length +
        (heatNeighbors m c (hval m h c) (h, rest)).1.count u32MAX + 1 =
        (c :: rest).length + h.count u32MAX := by
  obtain ⟨hcInB, hcvis⟩ := hinv.qmem c (List.mem_cons_self _ _)
  have hdist_c := hinv.dist c hcInB hcvis
  have hdlt : hval m h c + 1 < u32MAX := by
    have hlt := srcDistEq_lt m hok sources c (hval m h c) hsrc hcInB hdist_c
    have := hok.2.2.2.2
    omega
  have hmi0 : MidInv m sources c (hval m h c) ROOK_MOVES rest h := by
    refine ⟨hinv.len, hinv.dist, ?_, ?_, ?_, hinv.srcvis, ?_, ?_, hcInB, rfl⟩
    · intro z hz
      exact hinv.qmem z (List.mem_cons_of_mem _ hz)
    · exact (List.pairwise_cons.mp hinv.sorted).2
    · intro x hx
      constructor
      · exact (List.pairwise_cons.mp hinv.sorted).1 x hx
      · exact hinv.qspread x (List.mem_cons_of_mem _ hx) c
          (List.mem_cons_self _ _)
    · intro z hz hv hzc hzq off hm2 hb2
      have hznot : z ∉ c :: rest := by
        intro hmem
        rcases List.mem_cons.mp hmem with h' | h'
        · exact hzc h'
        · exact hzq h'
      exact hinv.closed z hz hv hznot off hm2 hb2
    · intro off2 hm2 hnin2
      exact absurd hm2 hnin2
  obtain ⟨hmi0', hmeas0⟩ := midInv_fold m hok sources c (hval m h c) hdlt
    ROOK_MOVES (fun o ho => ho) rest h hmi0
  have hmi1 : MidInv m sources c (hval m h c) []
      (heatNeighbors m c (hval m h c) (h, rest)).2
      (heatNeighbors m c (hval m h c) (h, rest)).1 := hmi0'
  have hmeas : (heatNeighbors m c (hval m h c) (h, rest)).2.length +
      (heatNeighbors m c (hval m h c) (h, rest)).1.count u32MAX =
      rest.length + h.count u32MAX := hmeas0
  constructor
  · refine ⟨hmi1.len, hmi1.dist, hmi1.qmem, hmi1.sorted, ?_, hmi1.srcvis, ?_⟩
    · intro a ha b hb
      have h1 := (hmi1.qrange a ha).2
      have h2 := (hmi1.qrange b hb).1
      omega
    · intro z hz hv hzq off hm2 hb2
      by_cases hzc : z = c
      · subst hzc
        exact hmi1.closedC off hm2 (by simp) hb2
      · exact hmi1.closedA z hz hv hzc hzq off hm2 hb2
  · show (heatNeighbors m c (hval m h c) (h, rest)).2.length +
      (heatNeighbors m c (hval m h c) (h, rest)).1.count u32MAX + 1 =
      rest.length + 1 + h.count u32MAX
    have : (heatNeighbors m c (hval m h c) (h, rest)).2.length +
        (heatNeighbors m c (hval m h c) (h, rest)).1.count u32MAX =
        rest.length + h.count u32MAX := hmeas
    omega

theorem heatBFS_cons (m : VillageMap) (fuel : Nat) (c : IVec2)
    (rest : List IVec2) (h : List Nat) :
    heatBFS m (fuel + 1) (c :: rest) h =
      heatBFS m fuel
        (heatNeighbors m c (hval m h c) (h, rest)).2
        (heatNeighbors m c (hval m h c) (h, rest)).1 := rfl

theorem heatBFS_correct (m : VillageMap) (hok : m.SizeOk)
    (sources : List IVec2)
    (hsrc : ∀ p ∈ sources, m.is_out_of_bounds p = false) :
    ∀ (fuel : Nat) (q : List IVec2) (h : List Nat),
      HeatInv m sources q h → q.length + h.count u32MAX ≤ fuel →
      HeatInv m sources [] (heatBFS m fuel q h) := by
  intro fuel
  induction fuel with
  | zero =>
    intro q h hinv hmu
    have hq : q = [] := by
      cases q with
      | nil => rfl
      | cons a tl => simp at hmu
    subst hq
    exact hinv
  | succ fuel ih =>
    intro q h hinv hmu
    cases q with
    | nil => exact hinv
    | cons c rest =>
      obtain ⟨hinv', hmeas⟩ := heatInv_pop m hok sources hsrc c rest h hinv
      rw [heatBFS_cons]
      refine ih _ _ hinv' ?_
      have hlen : (c :: rest).length = rest.length + 1 := rfl
      omega

theorem visited_along (m : VillageMap) (sources : List IVec2) (h : List Nat)
    (hinv : HeatInv m sources [] h) :
    ∀ (k : Nat) (s u : IVec2), m.is_out_of_bounds s = false →
      hval m h s ≠ u32MAX → RookWithin m k s u → hval m h u ≠ u32MAX := by
  intro k
  induction k with
  | zero =>
    intro s u _ hv hr
    have hus : u = s := hr
    subst hus
    exact hv
  | succ k ih =>
    intro s u hs hv hr
    rcases hr with hr | ⟨v, hvr, ⟨off, hoffm, rfl⟩, hub⟩
    · exact ih s u hs hv hr
    · have hvInB : m.is_out_of_bounds v = false := by
        rcases rookWithin_endpoint m k s v hvr with he | he
        · exact he ▸ hs
        · exact he
      have hvvis : hval m h v ≠ u32MAX := ih s v hs hv hvr
      exact hinv.closed v hvInB hvvis (by simp) off hoffm hub

theorem hval_replicate (m : VillageMap) (hok : m.SizeOk) (c : IVec2)
    (hc : m.is_out_of_bounds c = false) :
    hval m (List.replicate (m.size.x * m.size.y) u32MAX) c = u32MAX := by
  unfold hval
  rw [List.getD_eq_getElem?_getD,
    List.getElem?_replicate_of_lt (heatIndex_lt m hok c hc)]
  rfl

/-- The seeded state (before the loop) satisfies the heat invariant. -/
theorem heatInv_init (m : VillageMap) (hok : m.SizeOk) (sources : List IVec2)
    (hsrc : ∀ p ∈ sources, m.is_out_of_bounds p = false) :
    HeatInv m sources sources
      (sources.foldl (fun h p => h.set (heatIndex m p) 0)
        (List.replicate (m.size.x * m.size.y) u32MAX)) := by
  have hlen0 : (List.replicate (m.size.x * m.size.y) u32MAX).length =
      m.size.x * m.size.y := List.length_replicate _ _
  have hseed := hval_seed m hok sources
    (List.replicate (m.size.x * m.size.y) u32MAX) hlen0 hsrc
  have hchar : ∀ c, m.is_out_of_bounds c = false →
      hval m (sources.foldl (fun h p => h.set (heatIndex m p) 0)
        (List.replicate (m.size.x * m.size.y) u32MAX)) c =
      if c ∈ sources then 0 else u32MAX := by
    intro c hc
    rw [hseed c hc]
    by_cases hcm : c ∈ sources
    · simp [hcm]
    · simp [hcm, hval_replicate m hok c hc]
  have hmaxne : u32MAX ≠ 0 := by
    unfold u32MAX
    omega
  refine ⟨?_, ?_, ?_, ?_, ?_, ?_, ?_⟩
  · rw [length_foldl_set, hlen0]
  · intro c hc hv
    rw [hchar c hc] at hv ⊢
    by_cases hcm : c ∈ sources
    · rw [if_pos hcm]
      exact ⟨⟨c, hcm, rfl⟩, fun j _ => Nat.zero_le j⟩
    · rw [if_neg hcm] at hv
      exact absurd rfl hv
  · intro c hc
    have hcInB := hsrc c hc
    refine ⟨hcInB, ?_⟩
    rw [hchar c hcInB, if_pos hc]
    exact fun he => hmaxne he.symm
  · refine List.pairwise_of_forall_mem_list ?_
    intro a ha b hb
    rw [hchar a (hsrc a ha), hchar b (hsrc b hb), if_pos ha, if_pos hb]
  · intro a ha b hb
    rw [hchar a (hsrc a ha), if_pos ha]
    omega
  · intro s hs
    refine ⟨hsrc s hs, ?_⟩
    rw [hchar s (hsrc s hs), if_pos hs]
    exact fun he => hmaxne he.symm
  · intro z hz hv hzq off hm2 hb2
    rw [hchar z hz] at hv
    by_cases hzm : z ∈ sources
    · exact absurd hzm hzq
    · rw [if_neg hzm] at hv
      exact absurd rfl hv

/-- C3: after `generate_heat_map` the heat vector has length
`size.x * size.y`; with no stored objects every entry is 0; and with at
least one stored object the value of every in-bounds cell is exactly its
shortest 4-directional rook-move distance, through in-bounds cells and
ignoring occupancy and terrain, to the nearest object position. -/
theorem C3_heat_map (m : VillageMap) (hok : m.SizeOk)
    (hsrc : ∀ p ∈ m.object.pairs.map Prod.fst,
      m.is_out_of_bounds p = false) :
    m.generate_heat_map.heat_map.length = m.size.x * m.size.y ∧
    (m.object.pairs = [] → ∀ v ∈ m.generate_heat_map.heat_map, v = 0) ∧
    (m.object.pairs ≠ [] → ∀ c, m.is_out_of_bounds c = false →
       SrcDistEq m (m.object.pairs.map Prod.fst) c
         (hval m m.generate_heat_map.heat_map c)) := by
  by_cases hemp : (m.object.pairs.map Prod.fst).isEmpty
  · have hpairs : m.object.pairs = [] := by
      cases hp : m.object.pairs with
      | nil => rfl
      | cons a tl =>
        rw [hp] at hemp
        simp [List.isEmpty] at hemp
    have hmap : m.generate_heat_map.heat_map =
        List.replicate (m.size.x * m.size.y) 0 := by
      unfold VillageMap.generate_heat_map
      rw [if_pos hemp]
    refine ⟨?_, ?_, ?_⟩
    · rw [hmap, List.length_replicate]
    · intro _ v hv
      rw [hmap] at hv
      exact List.eq_of_mem_replicate hv
    · intro hne
      exact absurd hpairs hne
  · have hne : m.object.pairs ≠ [] := by
      intro hp
      rw [hp] at hemp
      exact hemp rfl
    have hmap : m.generate_heat_map.heat_map =
        heatBFS m ((m.object.pairs.map Prod.fst).length +
          m.size.x * m.size.y)
          (m.object.pairs.map Prod.fst)
          ((m.object.pairs.map Prod.fst).foldl
            (fun h p => h.set (heatIndex m p) 0)
            (List.replicate (m.size.x * m.size.y) u32MAX)) := by
      unfold VillageMap.generate_heat_map
      rw [if_neg hemp]
    have hinit := heatInv_init m hok (m.object.pairs.map Prod.fst) hsrc
    have hcount : ((m.object.pairs.map Prod.fst).foldl
        (fun h p => h.set (heatIndex m p) 0)
        (List.replicate (m.size.x * m.size.y) u32MAX)).count u32MAX ≤
        m.size.x * m.size.y := by
      calc _ ≤ ((m.object.pairs.map Prod.fst).foldl
          (fun h p => h.set (heatIndex m p) 0)
          (List.replicate (m.size.x * m.size.y) u32MAX)).length :=
            List.count_le_length _ _
        _ = m.size.x * m.size.y := by rw [length_foldl_set, List.length_replicate]
    have hfinal := heatBFS_correct m hok (m.object.pairs.map Prod.fst) hsrc
      ((m.object.pairs.map Prod.fst).length + m.size.x * m.size.y)
      (m.object.pairs.map Prod.fst)
      ((m.object.pairs.map Prod.fst).foldl
        (fun h p => h.set (heatIndex m p) 0)
        (List.replicate (m.size.x * m.size.y) u32MAX))
      hinit (by omega)
    rw [hmap]
    refine ⟨hfinal.len, ?_, ?_⟩
    · intro hp
      exact absurd hp hne
    · intro _ c hc
      have hs0 : ∃ s, s ∈ m.object.pairs.map Prod.fst := by
        cases hp : m.object.pairs.map Prod.fst with
        | nil =>
          exfalso
          apply hne
          cases hq : m.object.pairs with
          | nil => rfl
          | cons a tl =>
            rw [hq] at hp
            cases hp
        | cons s tl =>
          refine ⟨s, ?_⟩
          exact List.mem_cons_self _ _
      obtain ⟨s, hs⟩ := hs0
      obtain ⟨hsInB, hsvis⟩ := hfinal.srcvis s hs
      have hreach : RookWithin m
          ((s.x - c.x).natAbs + (s.y - c.y).natAbs) s c :=
        rook_connect m _ s c hsInB hc (le_refl _)
      have hcvis : hval m _ c ≠ u32MAX :=
        visited_along m _ _ hfinal _ s c hsInB hsvis hreach
      exact hfinal.dist c hc hcvis

/-- The 3-by-3 grass board with a single object (entity 1) at the origin. -/
def heatMap3 : VillageMap :=
  { openMap3 with object := ⟨⟨3, 3⟩, [(⟨0, 0⟩, 1)]⟩ }

theorem C3_heat_map_witness :
    heatMap3.SizeOk ∧
    (∀ p ∈ heatMap3.object.pairs.map Prod.fst,
       heatMap3.is_out_of_bounds p = false) ∧
    heatMap3.generate_heat_map.heat_map.length = 3 * 3 :=
  ⟨by decide, by decide, (C3_heat_map heatMap3 (by decide) (by decide)).1⟩

theorem C6_best_tile_witness :
    (⟨2, 1⟩ : IVec2) ∈
        heatMap3.generate_heat_map.flood ⟨2, 2⟩ 1 ROOK_MOVES false grassAllQ ∧
    (∀ t ∈ heatMap3.generate_heat_map.flood ⟨2, 2⟩ 1 ROOK_MOVES false grassAllQ,
       heatMap3.generate_heat_map.heatAt ⟨2, 1⟩ ≤
         heatMap3.generate_heat_map.heatAt t) ∧
    (∀ t ∈ heatMap3.generate_heat_map.flood ⟨2, 2⟩ 1 ROOK_MOVES false grassAllQ,
       heatMap3.generate_heat_map.heatAt t =
           heatMap3.generate_heat_map.heatAt ⟨2, 1⟩ →
         distance_squared ⟨2, 1⟩ ⟨2, 2⟩ ≤ distance_squared t ⟨2, 2⟩) :=
  (C6_best_tile heatMap3.generate_heat_map grassAllQ false ROOK_MOVES
    ⟨2, 2⟩ 1).1 ⟨2, 1⟩ (by decide)

end Jam
